import Mathlib

/-!
file-selector: path and type decoration, drop resolution.

A shallow embedding of `dist/es2015/file.js` and `dist/es2015/file-selector.js`.

* JavaScript strings are Lean strings; the string methods the code calls
  (`lastIndexOf`, `split`, `toLowerCase`) are defined below on the character list.
* A `File` object is the platform file (`RawFile`) together with the own properties
  that `Object.defineProperty` may have put on it (`type`, `path`); defining a
  non-writable, non-configurable property a second time with another value throws.
* A promise is embedded by its settlement: `Except String α`, `.ok v` for "resolved
  with `v`" and `.error r` for "rejected with reason `r`".
-/

namespace FileSelector

/-! ## JavaScript string methods used by the code -/

/-- `s.lastIndexOf(c)` for a one-character search string: the index of the last
occurrence of `c`, or `-1`. -/
def lastIndexOfAux (c : Char) : List Char → Nat → Int → Int
  | [], _, r => r
  | x :: xs, i, r => lastIndexOfAux c xs (i + 1) (if x = c then (i : Int) else r)

/-- `s.lastIndexOf(c)`. -/
def lastIndexOf (s : String) (c : Char) : Int :=
  lastIndexOfAux c s.data 0 (-1)

/-- `s.split(sep)` on the character list, for a one-character separator: the
maximal runs between separators, in order; never the empty array. -/
def splitChars (sep : Char) : List Char → List (List Char)
  | [] => [[]]
  | x :: xs =>
    if x = sep then [] :: splitChars sep xs
    else
      match splitChars sep xs with
      | [] => [[x]]
      | s :: ss => (x :: s) :: ss

/-- `s.split(sep)` for a one-character separator. -/
def split (s : String) (sep : Char) : List String :=
  (splitChars sep s.data).map String.mk

/-- `arr.pop()`: the last element, `undefined` (here `none`) on the empty array. -/
def pop (arr : List String) : Option String :=
  arr.getLast?

/-- Lower-casing of one character as far as the table lookup can observe it:
`A`..`Z` go to `a`..`z`, and U+212A (KELVIN SIGN) goes to `k`; these are the only
characters whose JavaScript lower case is an ASCII letter. Every other character is
kept, so a non-ASCII character stays outside the ASCII keys of the table. -/
def toLowerCaseChar (c : Char) : Char :=
  if c = Char.ofNat 0x212A then 'k' else c.toLower

/-- `s.toLowerCase()`. -/
def toLowerCase (s : String) : String :=
  String.mk (s.data.map toLowerCaseChar)

/-- `s.toUpperCase()` on ASCII strings (used by the tests on the table keys only). -/
def toUpperCase (s : String) : String :=
  String.mk (s.data.map Char.toUpper)

/-! ## file.js -/

/-- `COMMON_MIME_TYPES`, the extension to MIME type map, in insertion order. -/
def COMMON_MIME_TYPES : List (String × String) :=
  [ ("avi", "video/avi"),
    ("gif", "image/gif"),
    ("ico", "image/x-icon"),
    ("jpeg", "image/jpeg"),
    ("jpg", "image/jpeg"),
    ("mkv", "video/x-matroska"),
    ("mov", "video/quicktime"),
    ("mp4", "video/mp4"),
    ("pdf", "application/pdf"),
    ("png", "image/png"),
    ("zip", "application/zip"),
    ("doc", "application/msword"),
    ("docx", "application/vnd.openxmlformats-officedocument.wordprocessingml.document") ]

/-- `Map.prototype.get`. -/
def mapGet (m : List (String × String)) (key : String) : Option String :=
  m.lookup key

/-- A file as the platform hands it out (`new File(...)`, `getAsFile()`,
`entry.file(...)`, an element of a `FileList`): its name, declared type (`""` when
none), `webkitRelativePath` (`none` when the property is not a string) and bytes. -/
structure RawFile where
  name : String
  type : String
  webkitRelativePath : Option String
  content : List Nat
  deriving DecidableEq, Repr

/-- A `File` object: the platform file plus the own data properties that
`Object.defineProperty(..., {value, writable: false, configurable: false})` has put
on it so far (`none`: no such own property). -/
structure File where
  raw : RawFile
  ownType : Option String
  ownPath : Option String
  deriving DecidableEq, Repr

/-- A file object fresh from the platform: no own property defined yet. -/
def File.ofRaw (raw : RawFile) : File :=
  { raw := raw, ownType := none, ownPath := none }

/-- Reading `file.name`. -/
def File.name (f : File) : String := f.raw.name

/-- Reading `file.type`: the own property when defined, else the platform value. -/
def File.type (f : File) : String := f.ownType.getD f.raw.type

/-- Reading `file.path`: `none` is `undefined`. -/
def File.path (f : File) : Option String := f.ownPath

/-- Reading `file.size`. -/
def File.size (f : File) : Nat := f.raw.content.length

/-- `Object.defineProperty(o, key, {value, writable: false, configurable: false})`
on a slot that, when present, is such a non-writable, non-configurable data property:
the property is created when absent, nothing happens when it is present with the same
value, and a `TypeError` is thrown when it is present with another value. -/
def defineProperty (key : String) (slot : Option String) (value : String) :
    Except String (Option String) :=
  match slot with
  | none => .ok (some value)
  | some old =>
    if old = value then .ok (some old)
    else .error ("TypeError: Cannot redefine property: " ++ key)

/-- `withMimeType(file)`. -/
def withMimeType (file : File) : Except String File :=
  let name := file.name
  let hasExtension := name ≠ "" ∧ lastIndexOf name '.' ≠ -1
  if hasExtension ∧ file.type = "" then
    match pop (split name '.') with
    | none => .error "TypeError: Cannot read properties of undefined"
    | some last =>
      let ext := toLowerCase last
      match mapGet COMMON_MIME_TYPES ext with
      | some type =>
        if type ≠ "" then
          match defineProperty "type" file.ownType type with
          | .ok slot => .ok { file with ownType := slot }
          | .error e => .error e
        else .ok file
      | none => .ok file
  else .ok file

/-- `toFileWithPath(file, path)`; `path = none` is an argument that is not a string. -/
def toFileWithPath (file : File) (path : Option String) : Except String File :=
  match withMimeType file with
  | .error e => .error e
  | .ok f =>
    let webkitRelativePath := file.raw.webkitRelativePath
    let value :=
      match path with
      | some p => p
      | none =>
        match webkitRelativePath with
        | some w => if w.length > 0 then w else file.name
        | none => file.name
    match defineProperty "path" f.ownPath value with
    | .ok slot => .ok { f with ownPath := slot }
    | .error e => .error e

/-! ## file-selector.js -/

/-- `FILES_TO_IGNORE`. -/
def FILES_TO_IGNORE : List String :=
  [ ".DS_Store",
    "Thumbs.db" ]

/-- A `FileSystemEntry` as the walker observes it.

* `file`: `entry.file(ok, err)` calls `ok` with a new platform file or `err` with a
  reason.
* `dir`: the reader made by `entry.createReader()` answers the successive
  `readEntries` calls with the batches of `batches`, in order; once they are used up
  it reports the error `err` when there is one and the empty batch otherwise. -/
inductive Entry where
  | file (name fullPath : String) (file : Except String RawFile)
  | dir (name fullPath : String) (batches : List (List Entry)) (err : Option String)

/-- Reading `entry.isDirectory`. -/
def Entry.isDirectory : Entry → Bool
  | .file _ _ _ => false
  | .dir _ _ _ _ => true

/-- Reading `entry.name`. -/
def Entry.name : Entry → String
  | .file name _ _ => name
  | .dir name _ _ _ => name

/-- Reading `entry.fullPath`. -/
def Entry.fullPath : Entry → String
  | .file _ fullPath _ => fullPath
  | .dir _ fullPath _ _ => fullPath

/-- A `DataTransferItem`: `webkitGetAsEntry = none` when the item has no such
function, `some none` when the call returns `null`; `getAsFile = none` when that
call returns `null`, otherwise a new platform file. -/
structure DataTransferItem where
  kind : String
  webkitGetAsEntry : Option (Option Entry)
  getAsFile : Option RawFile

/-- A `DataTransfer`, reduced to `Array.from(dt.items)`. -/
structure DataTransfer where
  items : List DataTransferItem

/-- An event target, reduced to its `files` (`none`: no files list). The file
objects of a files list are the ones the element holds, decorated or not. -/
structure Target where
  files : Option (List File)

/-- An event: `dataTransfer = none` when the property is absent or `null`,
`target = none` when it is `null`. -/
structure Event where
  type : String
  dataTransfer : Option DataTransfer
  target : Option Target

/-- What a resolution is made of: a file, or an array of such values. -/
inductive Nested where
  | leaf (f : File)
  | arr (xs : List Nested)

/-- The array `fromEvent` resolves with: files, or (outside a drop) the items. -/
inductive Result where
  | files (fs : List File)
  | items (is : List DataTransferItem)

/-- `Promise.all(ps)`: resolves with the values in the order of `ps` when all of
them resolve, rejects when one rejects. Which reason a rejection carries depends on
the order in which the promises settle; the embedding keeps the reason of the first
rejected promise of the list, and the properties below speak of the rejection only. -/
def Promise.all {α : Type} : List (Except String α) → Except String (List α)
  | [] => .ok []
  | p :: ps =>
    match p with
    | .error e => .error e
    | .ok v =>
      match Promise.all ps with
      | .error e => .error e
      | .ok vs => .ok (v :: vs)

mutual
/-- The contribution of one element in `flatten`:
`Array.isArray(files) ? flatten(files) : [files]`. -/
def flattenItem : Nested → List File
  | .leaf f => [f]
  | .arr xs => flatten xs
/-- `flatten(items)`: the reduction from `[]` that appends each element's
contribution to the accumulator. -/
def flatten : List Nested → List File
  | [] => []
  | x :: xs => flattenItem x ++ flatten xs
end

/-- `fromDataTransferItem(item)`; `getAsFile()` hands out a new file object, and a
throw of `toFileWithPath` would reject the caller's promise. -/
def fromDataTransferItem (item : DataTransferItem) : Except String File :=
  match item.getAsFile with
  | none => .error "[object DataTransferItem] is not a File"
  | some file => toFileWithPath (File.ofRaw file) none

/-- `createEmptyDirFile(entry)`; `new File([], entry.name)` has no bytes, no declared
type and the empty `webkitRelativePath`. -/
def createEmptyDirFile (entry : Entry) : Except String File :=
  let file : RawFile :=
    { name := entry.name, type := "", webkitRelativePath := some "", content := [] }
  toFileWithPath (File.ofRaw file) (some (entry.fullPath ++ "/"))

/-- `fromFileEntry(entry)`: settled by the callback `entry.file` calls. The file
passed to the success callback is a new file object, on which `toFileWithPath` does
not throw (`toFileWithPath_ofRaw_eq`). -/
def fromFileEntry (entry : Entry) : Except String File :=
  match entry with
  | .file _ fullPath file =>
    match file with
    | .ok f => toFileWithPath (File.ofRaw f) (some fullPath)
    | .error err => .error err
  | .dir _ _ _ _ => .error "TypeError: entry.file is not a function"

/-- The body of the empty-batch branch of `readEntries`: join the batches pushed so
far, add the placeholder when no batch was pushed, resolve. -/
def doneReading (entry : Entry) (entries : List (Except String Nested)) (empty : Bool) :
    Except String Nested :=
  match Promise.all entries with
  | .error err => .error err
  | .ok files =>
    if empty then
      match createEmptyDirFile entry with
      | .error err => .error err
      | .ok fwp => .ok (.arr (files ++ [.arr [.leaf fwp]]))
    else .ok (.arr files)

mutual
/-- `fromEntry(entry)`; the directory case is the body of `fromDirEntry`. -/
def fromEntry : Entry → Except String Nested
  | .file name fullPath file => (fromFileEntry (.file name fullPath file)).map Nested.leaf
  | .dir name fullPath batches err =>
    readEntries (.dir name fullPath batches err) err batches [] true
/-- The `readEntries` loop inside `fromDirEntry(entry)`. The reader's state is what
is left of its script (the batches still to deliver, and `err`); `entries` and
`empty` are the two local variables of the promise executor. -/
def readEntries (entry : Entry) (err : Option String) :
    List (List Entry) → List (Except String Nested) → Bool → Except String Nested
  | [], entries, empty =>
    match err with
    | some e => .error e
    | none => doneReading entry entries empty
  | batch :: rest, entries, empty =>
    if batch.length = 0 then
      doneReading entry entries empty
    else
      let items := (Promise.all (mapFromEntry batch)).map Nested.arr
      readEntries entry err rest (entries ++ [items]) false
/-- `batch.map(fromEntry)`. -/
def mapFromEntry : List Entry → List (Except String Nested)
  | [] => []
  | e :: es => fromEntry e :: mapFromEntry es
end

/-- `fromDirEntry(entry)`. -/
def fromDirEntry (entry : Entry) : Except String Nested :=
  match entry with
  | .dir name fullPath batches err =>
    readEntries (.dir name fullPath batches err) err batches [] true
  | .file _ _ _ => .error "TypeError: entry.createReader is not a function"

/-- `toFilePromises(item)`. -/
def toFilePromises (item : DataTransferItem) : Except String Nested :=
  match item.webkitGetAsEntry with
  | none => (fromDataTransferItem item).map Nested.leaf
  | some entry =>
    match entry with
    | some e =>
      if e.isDirectory then fromDirEntry e
      else (fromDataTransferItem item).map Nested.leaf
    | none => (fromDataTransferItem item).map Nested.leaf

/-- `getDataTransferFiles(dt, type)`. -/
def getDataTransferFiles (dt : DataTransfer) (type : String) : Except String Result :=
  let items := dt.items.filter (fun item => item.kind = "file")
  if type = "drop" then
    match Promise.all (items.map toFilePromises) with
    | .error e => .error e
    | .ok files =>
      .ok (.files ((flatten files).filter (fun file => !FILES_TO_IGNORE.contains file.name)))
  else .ok (.items items)

/-- `isInput(value)`. -/
def isInput (value : Option Target) : Bool :=
  value.isSome

/-- `files.map(file => toFileWithPath(file))`, left to right, stopping at a throw. -/
def mapToFileWithPath : List File → Except String (List File)
  | [] => .ok []
  | file :: rest =>
    match toFileWithPath file none with
    | .error e => .error e
    | .ok f =>
      match mapToFileWithPath rest with
      | .error e => .error e
      | .ok fs => .ok (f :: fs)

/-- `getInputFiles(evt)`. -/
def getInputFiles (evt : Event) : Except String Result :=
  let files : List File :=
    match evt.target with
    | some target =>
      match target.files with
      | some fs => fs
      | none => []
    | none => []
  (mapToFileWithPath files).map Result.files

/-- `isDragEvt(value)`. -/
def isDragEvt (value : Event) : Bool :=
  value.dataTransfer.isSome

/-- `fromEvent(evt)`. -/
def fromEvent (evt : Event) : Except String Result :=
  match evt.dataTransfer with
  | some dataTransfer =>
    if isDragEvt evt then getDataTransferFiles dataTransfer evt.type
    else getInputFiles evt
  | none => getInputFiles evt

/-! ## The calls of `fromDirEntry`, in the order they are made

The promise embedding above keeps the settlements and drops the order of the calls.
`readEntriesTrace` is the `readEntries` loop once more, recording in program order
what `fromDirEntry` and its reader do to each other. The reader invokes one callback
per request, after the code that made the request has returned. -/

/-- What happens between `fromDirEntry` and its reader. -/
inductive ReadEvent where
  /-- The call `reader.readEntries(...)` made by `readEntries()`. -/
  | request
  /-- The reader invokes the success callback with the batch `b`. -/
  | batch (b : List Entry)
  /-- The reader invokes the error callback, which rejects. -/
  | error (reason : String)
  /-- `Promise.all(batch.map(fromEntry))` is created for the batch `b`, which starts the
  resolution of its entries, and is pushed on `entries`. -/
  | started (b : List Entry)
  /-- The branch of the empty batch: `entries` is joined and the promise settled. -/
  | joined

/-- The events of the loop `readEntries` on a reader that has the batches of the list
still to deliver and then reports `err` or the empty batch: the request; the reader's
answer; on a non-empty batch the start of its resolution and then, by the call
`readEntries()` that ends the callback, the events of the next round. -/
def readEntriesTrace (err : Option String) : List (List Entry) → List ReadEvent
  | [] =>
    .request ::
      match err with
      | some e => [.error e]
      | none => [.batch [], .joined]
  | b :: rest =>
    .request :: .batch b ::
      if b.length = 0 then [.joined]
      else .started b :: readEntriesTrace err rest

/-- The events of `fromDirEntry(entry)` for a directory whose reader has the script
`batches`, `err`: `createReader()`, then `readEntries()`. -/
def fromDirEntryTrace (batches : List (List Entry)) (err : Option String) : List ReadEvent :=
  readEntriesTrace err batches

/-- The event is a read request. -/
def ReadEvent.isRequest : ReadEvent → Bool
  | .request => true
  | _ => false

/-- The event is an answer of the reader: a batch or an error. -/
def ReadEvent.isAnswer : ReadEvent → Bool
  | .batch _ => true
  | .error _ => true
  | _ => false

/-- The event is the start of the resolution of a batch. -/
def ReadEvent.isStarted : ReadEvent → Bool
  | .started _ => true
  | _ => false

/-- The batches whose resolution is started in a trace, in order. -/
def startedBatches : List ReadEvent → List (List Entry)
  | [] => []
  | .started b :: rest => b :: startedBatches rest
  | _ :: rest => startedBatches rest

/-- The reason of the error a trace holds, when it holds one. -/
def traceError : List ReadEvent → Option String
  | [] => none
  | .error e :: _ => some e
  | _ :: rest => traceError rest

/-! ## Notions used to state the properties -/

/-- The file object `toFileWithPath` returns on a file object fresh from the
platform (it always returns on such an object, see `toFileWithPath_ofRaw_eq`). -/
def decorated (raw : RawFile) (path : Option String) : File :=
  match toFileWithPath (File.ofRaw raw) path with
  | .ok f => f
  | .error _ => File.ofRaw raw

/-- Something fails while the entry is resolved: its `file()` reports an error; or it
is a directory whose reader, having delivered non-empty batches only, reports an
error; or it is a directory with a failing entry in a batch that is read, that is, a
batch with non-empty batches only before it. -/
inductive Entry.Fails : Entry → Prop where
  | file (name fullPath reason : String) :
      Entry.Fails (.file name fullPath (.error reason))
  | reader (name fullPath : String) (batches : List (List Entry)) (reason : String)
      (hread : ∀ b ∈ batches, b ≠ []) :
      Entry.Fails (.dir name fullPath batches (some reason))
  | child (name fullPath : String) (before : List (List Entry)) (batch : List Entry)
      (after : List (List Entry)) (err : Option String) (e : Entry)
      (hread : ∀ b ∈ before, b ≠ []) (hmem : e ∈ batch) (hfail : Entry.Fails e) :
      Entry.Fails (.dir name fullPath (before ++ batch :: after) err)

/-- The item is walked as a directory: it offers `webkitGetAsEntry` and the call
returns a directory entry. -/
def DataTransferItem.dirEntry (item : DataTransferItem) : Option Entry :=
  match item.webkitGetAsEntry with
  | some (some e) => if e.isDirectory then some e else none
  | _ => none

/-- Something fails while the item is resolved: the directory it is walked as
fails, or it is not walked as a directory and `getAsFile` yields no file. -/
def DataTransferItem.Fails (item : DataTransferItem) : Prop :=
  match item.dirEntry with
  | some e => e.Fails
  | none => item.getAsFile = none

mutual
/-- The number of leaves (files) of a nested value. -/
def Nested.leafCount : Nested → Nat
  | .leaf _ => 1
  | .arr xs => leafCountList xs
/-- The number of leaves of a collection of nested values. -/
def leafCountList : List Nested → Nat
  | [] => 0
  | x :: xs => x.leafCount + leafCountList xs
end

mutual
/-- The number of leaves of a nested value that are the file `f`. -/
def Nested.occurrences (f : File) : Nested → Nat
  | .leaf g => if g = f then 1 else 0
  | .arr xs => occurrencesList f xs
/-- The number of leaves of a collection of nested values that are the file `f`. -/
def occurrencesList (f : File) : List Nested → Nat
  | [] => 0
  | x :: xs => x.occurrences f + occurrencesList f xs
end

/-- What a returned file is expected to be: a platform file and the path it has. -/
structure Expected where
  raw : RawFile
  path : String

/-- The placeholder of the empty directory `name`, `fullPath`: a file without bytes
named after the directory, with the directory's full path followed by `/` as path. -/
def Expected.placeholder (name fullPath : String) : Expected :=
  { raw := { name := name, type := "", webkitRelativePath := some "", content := [] },
    path := fullPath ++ "/" }

/-- The file `f` is the expected one: the platform file `x.raw` with path `x.path`. -/
def Expected.Matches (x : Expected) (f : File) : Prop :=
  f.raw = x.raw ∧ f.path = some x.path

/-- The reader delivers no item: it has no batch to deliver, or its first batch is
the empty one. -/
def deliversNothing : List (List Entry) → Bool
  | [] => true
  | batch :: _ => batch.isEmpty

mutual
/-- The files expected from an entry, depth first and left to right: a file entry
gives its file with the entry's full path; a directory gives its placeholder when its
reader delivers no item, and otherwise the files of the entries of its batches, in
delivery order, up to the first empty batch. -/
def Entry.expected : Entry → List Expected
  | .file _ fullPath (.ok raw) => [{ raw := raw, path := fullPath }]
  | .file _ _ (.error _) => []
  | .dir name fullPath batches _ =>
    if deliversNothing batches then [Expected.placeholder name fullPath]
    else expectedBatches batches
/-- The files expected from the batches a reader delivers, up to the first empty one. -/
def expectedBatches : List (List Entry) → List Expected
  | [] => []
  | batch :: rest =>
    if batch.isEmpty then [] else expectedBatch batch ++ expectedBatches rest
/-- The files expected from the entries of a batch, in the batch's order. -/
def expectedBatch : List Entry → List Expected
  | [] => []
  | e :: es => e.expected ++ expectedBatch es
end

/-- The entry resolves without failure, every reader delivering non-empty batches
followed by the empty batch: a file entry delivers its file; a directory's reader
reports no error, its batches are non-empty and their entries are of that kind. -/
inductive Entry.WellRead : Entry → Prop where
  | file (name fullPath : String) (raw : RawFile) :
      Entry.WellRead (.file name fullPath (.ok raw))
  | dir (name fullPath : String) (batches : List (List Entry))
      (hread : ∀ b ∈ batches, b ≠ [])
      (hentries : ∀ b ∈ batches, ∀ e ∈ b, Entry.WellRead e) :
      Entry.WellRead (.dir name fullPath batches none)

/-- The files expected from a top-level item: those of the directory it is walked
as, or else the file of `getAsFile` with its non-empty `webkitRelativePath` or else
its name as path. -/
def DataTransferItem.expected (item : DataTransferItem) : List Expected :=
  match item.dirEntry with
  | some e => e.expected
  | none =>
    match item.getAsFile with
    | some raw =>
      [ { raw := raw,
          path := match raw.webkitRelativePath with
            | some w => if w ≠ "" then w else raw.name
            | none => raw.name } ]
    | none => []

/-- The files expected from a list of items, in the order of the items. -/
def expectedItems : List DataTransferItem → List Expected
  | [] => []
  | item :: rest => item.expected ++ expectedItems rest

/-- The files expected from a drop: those of the items of kind `file`, in the order
of the payload, without the ones named in `FILES_TO_IGNORE`. -/
def DataTransfer.expected (dt : DataTransfer) : List Expected :=
  (expectedItems (dt.items.filter (fun item => item.kind = "file"))).filter
    (fun x => !FILES_TO_IGNORE.contains x.raw.name)

/-! ## Sample payloads -/

/-- A drop of a directory `/photos` holding `a.png`, `.DS_Store` and `b.txt` (read in
two batches), together with a top-level `Thumbs.db` and a top-level `c.pdf`. -/
def sampleDrop : Event :=
  { type := "drop",
    target := none,
    dataTransfer := some
      { items :=
          [ { kind := "file",
              getAsFile := none,
              webkitGetAsEntry := some (some (.dir "photos" "/photos"
                [ [ .file "a.png" "/photos/a.png" (.ok ⟨"a.png", "", some "", [1, 2]⟩),
                    .file ".DS_Store" "/photos/.DS_Store" (.ok ⟨".DS_Store", "", some "", [0]⟩) ],
                  [ .file "b.txt" "/photos/b.txt" (.ok ⟨"b.txt", "text/plain", some "", []⟩) ] ]
                none)) },
            { kind := "string", getAsFile := none, webkitGetAsEntry := none },
            { kind := "file",
              getAsFile := some ⟨"Thumbs.db", "", some "", [7]⟩,
              webkitGetAsEntry := some (some (.file "Thumbs.db" "/Thumbs.db"
                (.ok ⟨"Thumbs.db", "", some "", [7]⟩))) },
            { kind := "file",
              getAsFile := some ⟨"c.pdf", "", some "", [3]⟩,
              webkitGetAsEntry := none } ] } }

/-- A drag-over whose payload holds an item that is no file, an item without a
retrievable file, and a directory whose reader reports an error. -/
def sampleDragOver : Event :=
  { type := "dragover",
    target := none,
    dataTransfer := some
      { items :=
          [ { kind := "string", getAsFile := none, webkitGetAsEntry := none },
            { kind := "file", getAsFile := none, webkitGetAsEntry := some none },
            { kind := "file", getAsFile := none,
              webkitGetAsEntry := some (some (.dir "d" "/d" [] (some "NotReadableError"))) } ] } }

/-- A drop of a file `c.pdf` and of a directory `/a` whose subdirectory `/a/b` holds
an entry whose `file()` reports an error. -/
def sampleFailingDrop : Event :=
  { type := "drop",
    target := none,
    dataTransfer := some
      { items :=
          [ { kind := "file",
              getAsFile := some ⟨"c.pdf", "", some "", [3]⟩,
              webkitGetAsEntry := none },
            { kind := "file",
              getAsFile := none,
              webkitGetAsEntry := some (some (.dir "a" "/a"
                [ [ .file "ok.txt" "/a/ok.txt" (.ok ⟨"ok.txt", "", some "", []⟩),
                    .dir "b" "/a/b"
                      [ [ .file "x" "/a/b/x" (.error "NotFoundError") ] ] none ] ]
                none)) } ] } }

/-- A change event of a file input whose selection holds `notes.txt`, `.DS_Store`
and a file picked through a directory input (`webkitRelativePath` set). -/
def sampleChange : Event :=
  { type := "change",
    dataTransfer := none,
    target := some
      { files := some
          [ File.ofRaw ⟨"notes.txt", "text/plain", some "", [1]⟩,
            File.ofRaw ⟨".DS_Store", "", some "", [0]⟩,
            File.ofRaw ⟨"b.PNG", "", some "album/b.PNG", [2, 3]⟩ ] } }

/-! ## Lemmas on the string methods and on `withMimeType` -/

theorem lastIndexOfAux_eq (c : Char) (xs : List Char) (i : Nat) (r : Int) :
    lastIndexOfAux c xs i r = -1 ↔ c ∉ xs ∧ r = -1 := by
  induction xs generalizing i r with
  | nil => simp [lastIndexOfAux]
  | cons x xs ih =>
    simp only [lastIndexOfAux, ih, List.mem_cons, not_or]
    by_cases h : x = c
    · subst h
      simp
    · simp [h, Ne.symm h]

theorem lastIndexOf_ne (s : String) (c : Char) :
    lastIndexOf s c ≠ -1 ↔ c ∈ s.data := by
  unfold lastIndexOf
  rw [Ne, lastIndexOfAux_eq]
  simp

theorem splitChars_of_not_mem (sep : Char) (xs : List Char) (h : sep ∉ xs) :
    splitChars sep xs = [xs] := by
  induction xs with
  | nil => rfl
  | cons x xs ih =>
    simp only [List.mem_cons, not_or] at h
    simp [splitChars, Ne.symm h.1, ih h.2]

theorem splitChars_append (sep : Char) (pre ext : List Char) (h : sep ∉ ext) :
    ∃ l L, splitChars sep (pre ++ sep :: ext) = l :: (L ++ [ext]) := by
  induction pre with
  | nil =>
    refine ⟨[], [], ?_⟩
    simp [splitChars, splitChars_of_not_mem sep ext h]
  | cons x pre ih =>
    obtain ⟨l, L, hL⟩ := ih
    by_cases hx : x = sep
    · refine ⟨[], l :: L, ?_⟩
      simp [splitChars, hx, hL]
    · refine ⟨x :: l, L, ?_⟩
      simp [splitChars, hx, hL]

theorem pop_split (pre ext : String) (h : '.' ∉ ext.data) :
    pop (split (pre ++ "." ++ ext) '.') = some ext := by
  obtain ⟨l, L, hL⟩ := splitChars_append '.' pre.data ext.data h
  have hd : (pre ++ "." ++ ext).data = pre.data ++ '.' :: ext.data := by
    simp [String.data_append]
  simp only [pop, split, hd, hL, List.map_cons, List.map_append, List.map_nil]
  rw [List.getLast?_cons, List.getLast?_append]
  simp

theorem pop_split_of_not_mem (name : String) (h : '.' ∉ name.data) :
    pop (split name '.') = some name := by
  simp [pop, split, splitChars_of_not_mem '.' name.data h]

theorem length_pos_iff_ne_empty (s : String) : s.length > 0 ↔ s ≠ "" := by
  cases s with
  | mk d =>
    cases d with
    | nil => simp
    | cons c cs =>
      simp [String.length]
      intro h
      have := congrArg String.data h
      simp at this

theorem mem_of_mapGet (m : List (String × String)) (k v : String)
    (h : mapGet m k = some v) : (k, v) ∈ m := by
  unfold mapGet at h
  induction m with
  | nil => simp at h
  | cons kv m ih =>
    obtain ⟨k1, v1⟩ := kv
    simp only [List.lookup] at h
    split at h
    · rename_i heq
      have hk : k = k1 := by simpa using heq
      cases h
      simp [hk]
    · exact List.mem_cons_of_mem _ (ih h)

theorem table_entries : ∀ kv ∈ COMMON_MIME_TYPES, '.' ∉ kv.1.data ∧ kv.2 ≠ "" := by
  decide

theorem splitChars_ne_nil (sep : Char) (xs : List Char) : splitChars sep xs ≠ [] := by
  cases xs with
  | nil => simp [splitChars]
  | cons x xs =>
    by_cases hx : x = sep
    · simp [splitChars, hx]
    · cases hs : splitChars sep xs <;> simp [splitChars, hx, hs]

theorem pop_split_some (name : String) : ∃ last, pop (split name '.') = some last := by
  unfold pop split
  cases h : (List.map String.mk (splitChars '.' name.data)).getLast? with
  | none =>
    rw [List.getLast?_eq_none_iff, List.map_eq_nil_iff] at h
    exact absurd h (splitChars_ne_nil _ _)
  | some last => exact ⟨last, rfl⟩

theorem dot_mem_toLowerCase (ext : String) (h : '.' ∈ ext.data) :
    '.' ∈ (toLowerCase ext).data := by
  unfold toLowerCase
  exact List.mem_map.mpr ⟨'.', h, by decide⟩

theorem withMimeType_ofRaw_unchanged (raw : RawFile)
    (h : raw.type ≠ "" ∨ '.' ∉ raw.name.data ∨
      ∀ last, pop (split raw.name '.') = some last →
        mapGet COMMON_MIME_TYPES (toLowerCase last) = none) :
    withMimeType (File.ofRaw raw) = .ok (File.ofRaw raw) := by
  unfold withMimeType
  simp only [File.name, File.type, File.ofRaw, Option.getD_none, lastIndexOf_ne]
  split_ifs with hc
  · obtain ⟨⟨_, hdot⟩, hty⟩ := hc
    rcases h with h | h | h
    · exact absurd hty h
    · exact absurd hdot h
    · obtain ⟨last, hl⟩ := pop_split_some raw.name
      rw [hl]
      simp only [h last hl]
  · rfl

theorem withMimeType_ofRaw_known (raw : RawFile) (pre ext v : String)
    (hty : raw.type = "") (hname : raw.name = pre ++ "." ++ ext)
    (hk : mapGet COMMON_MIME_TYPES (toLowerCase ext) = some v) :
    withMimeType (File.ofRaw raw) = .ok { raw := raw, ownType := some v, ownPath := none } := by
  have hmem := mem_of_mapGet _ _ _ hk
  have hkv := table_entries _ hmem
  have hdot : '.' ∉ ext.data := fun hd => hkv.1 (dot_mem_toLowerCase ext hd)
  have hin : '.' ∈ raw.name.data := by
    rw [hname]; simp [String.data_append]
  have hne : raw.name ≠ "" := by
    intro h0
    rw [h0] at hin
    simp at hin
  have hpop : pop (split raw.name '.') = some ext := by
    rw [hname]; exact pop_split pre ext hdot
  unfold withMimeType
  simp only [File.name, File.type, File.ofRaw, Option.getD_none, lastIndexOf_ne]
  rw [if_pos ⟨⟨hne, hin⟩, hty⟩, hpop]
  simp only [hk, defineProperty]
  rw [if_pos hkv.2]

/-- On a file object fresh from the platform `withMimeType` returns, keeps the
platform file and defines no `path`. -/
theorem withMimeType_ofRaw (raw : RawFile) :
    ∃ t, withMimeType (File.ofRaw raw) = .ok { raw := raw, ownType := t, ownPath := none } := by
  unfold withMimeType
  simp only [File.name, File.type, File.ofRaw, Option.getD_none, defineProperty]
  obtain ⟨last, hl⟩ := pop_split_some raw.name
  rw [hl]
  by_cases hc : (raw.name ≠ "" ∧ lastIndexOf raw.name '.' ≠ -1) ∧ raw.type = ""
  · rw [if_pos hc]
    cases hm : mapGet COMMON_MIME_TYPES (toLowerCase last) with
    | none => exact ⟨none, by simp only [hm]⟩
    | some v =>
      by_cases hv : v ≠ ""
      · exact ⟨some v, by simp only [hm, if_pos hv]⟩
      · exact ⟨none, by simp only [hm, if_neg hv]⟩
  · rw [if_neg hc]
    exact ⟨_, rfl⟩

/-- The value `toFileWithPath` gives to `path`. -/
theorem toFileWithPath_ofRaw (raw : RawFile) (p : Option String) :
    ∃ t, withMimeType (File.ofRaw raw) = .ok { raw := raw, ownType := t, ownPath := none } ∧
      toFileWithPath (File.ofRaw raw) p = .ok
        { raw := raw, ownType := t,
          ownPath := some (match p with
            | some s => s
            | none =>
              match raw.webkitRelativePath with
              | some w => if w.length > 0 then w else raw.name
              | none => raw.name) } := by
  obtain ⟨t, ht⟩ := withMimeType_ofRaw raw
  refine ⟨t, ht, ?_⟩
  unfold toFileWithPath
  rw [ht]
  simp only [defineProperty, File.ofRaw, File.name]

theorem table_keys_lower_upper : ∀ kv ∈ COMMON_MIME_TYPES,
    mapGet COMMON_MIME_TYPES (toLowerCase kv.1) = some kv.2 ∧
    mapGet COMMON_MIME_TYPES (toLowerCase (toUpperCase kv.1)) = some kv.2 := by
  decide

/-! ## C1 – C4: `toFileWithPath` on a raw file -/

/-- C1: for every raw file `f` and optional explicit path `p`, `toFileWithPath`
returns a file whose `path` is `p` when `p` is a string, otherwise
`f.webkitRelativePath` when that is a non-empty string, otherwise `f.name`. -/
theorem toFileWithPath_path_precedence (f : RawFile) (p : Option String) :
    ∃ g, toFileWithPath (File.ofRaw f) p = .ok g ∧
      (∀ s, p = some s → g.path = some s) ∧
      (p = none → ∀ w, f.webkitRelativePath = some w → w ≠ "" → g.path = some w) ∧
      (p = none → (f.webkitRelativePath = none ∨ f.webkitRelativePath = some "") →
        g.path = some f.name) := by
  obtain ⟨t, _, ht⟩ := toFileWithPath_ofRaw f p
  refine ⟨_, ht, ?_, ?_, ?_⟩
  · intro s hs
    subst hs
    rfl
  · intro hp w hw hne
    subst hp
    simp only [File.path, hw, if_pos ((length_pos_iff_ne_empty w).mpr hne)]
  · intro hp hw
    subst hp
    rcases hw with hw | hw
    · simp only [File.path, hw]
    · simp only [File.path, hw]
      rfl

theorem toFileWithPath_path_precedence_witness :
    (∃ g, toFileWithPath (File.ofRaw ⟨"test.json", "", some "test/test.json", []⟩) none = .ok g ∧
      g.path = some "test/test.json") ∧
    (∃ g, toFileWithPath (File.ofRaw ⟨"test.json", "", some "", []⟩) none = .ok g ∧
      g.path = some "test.json") ∧
    (∃ g, toFileWithPath (File.ofRaw ⟨"test.json", "", some "a/test.json", []⟩)
        (some "/test/test.json") = .ok g ∧
      g.path = some "/test/test.json") := by
  refine ⟨?_, ?_, ?_⟩
  · obtain ⟨g, hg, _, h2, _⟩ :=
      toFileWithPath_path_precedence ⟨"test.json", "", some "test/test.json", []⟩ none
    exact ⟨g, hg, h2 rfl _ rfl (by decide)⟩
  · obtain ⟨g, hg, _, _, h3⟩ :=
      toFileWithPath_path_precedence ⟨"test.json", "", some "", []⟩ none
    exact ⟨g, hg, h3 rfl (Or.inr rfl)⟩
  · obtain ⟨g, hg, h1, _, _⟩ :=
      toFileWithPath_path_precedence ⟨"test.json", "", some "a/test.json", []⟩
        (some "/test/test.json")
    exact ⟨g, hg, h1 _ rfl⟩

/-- C2: for every raw file without a declared type whose name ends in `.` followed
by an extension that, lowercased, is a key of `COMMON_MIME_TYPES`, the file returned
by `toFileWithPath` has the table's value for that key as its `type`; in particular
for every key of the table written in lower case and written in upper case. -/
theorem toFileWithPath_type_from_extension :
    (∀ (f : RawFile) (p : Option String) (pre ext v : String),
      f.type = "" → f.name = pre ++ "." ++ ext →
      mapGet COMMON_MIME_TYPES (toLowerCase ext) = some v →
      ∃ g, toFileWithPath (File.ofRaw f) p = .ok g ∧ g.type = v) ∧
    (∀ kv ∈ COMMON_MIME_TYPES, ∀ (f : RawFile) (p : Option String) (pre : String),
      f.type = "" →
      (f.name = pre ++ "." ++ kv.1 ∨ f.name = pre ++ "." ++ toUpperCase kv.1) →
      ∃ g, toFileWithPath (File.ofRaw f) p = .ok g ∧ g.type = kv.2) := by
  have key : ∀ (f : RawFile) (p : Option String) (pre ext v : String),
      f.type = "" → f.name = pre ++ "." ++ ext →
      mapGet COMMON_MIME_TYPES (toLowerCase ext) = some v →
      ∃ g, toFileWithPath (File.ofRaw f) p = .ok g ∧ g.type = v := by
    intro f p pre ext v hty hname hk
    obtain ⟨t, hw, ht⟩ := toFileWithPath_ofRaw f p
    rw [withMimeType_ofRaw_known f pre ext v hty hname hk] at hw
    have htv : t = some v := by
      injection hw with hw
      injection hw with _ h2 _
      exact h2.symm
    subst htv
    exact ⟨_, ht, rfl⟩
  refine ⟨key, ?_⟩
  intro kv hkv f p pre hty hname
  have hlu := table_keys_lower_upper kv hkv
  rcases hname with hname | hname
  · exact key f p pre _ _ hty hname hlu.1
  · exact key f p pre _ _ hty hname hlu.2

theorem toFileWithPath_type_from_extension_witness :
    (∃ g, toFileWithPath (File.ofRaw ⟨"test.PnG", "", some "", []⟩) none = .ok g ∧
      g.type = "image/png") ∧
    (∃ g, toFileWithPath (File.ofRaw ⟨"test.DOCX", "", some "", []⟩) (some "/d/test.DOCX") = .ok g ∧
      g.type = "application/vnd.openxmlformats-officedocument.wordprocessingml.document") :=
  ⟨toFileWithPath_type_from_extension.1 ⟨"test.PnG", "", some "", []⟩ none "test" "PnG"
      "image/png" rfl (by decide) (by decide),
    toFileWithPath_type_from_extension.2
      ("docx", "application/vnd.openxmlformats-officedocument.wordprocessingml.document")
      (by decide) ⟨"test.DOCX", "", some "", []⟩ (some "/d/test.DOCX") "test" rfl
      (Or.inr (by decide))⟩

/-- C3: `toFileWithPath` leaves the type of the raw file as it is when the raw file
has a non-empty declared type (whatever its name), when its name has no `.`, and
when the text after the last `.` of its name, lowercased, is not a key of
`COMMON_MIME_TYPES`. -/
theorem toFileWithPath_type_unchanged (f : RawFile) (p : Option String)
    (h : f.type ≠ "" ∨ '.' ∉ f.name.data ∨
      ∃ pre ext, f.name = pre ++ "." ++ ext ∧ '.' ∉ ext.data ∧
        mapGet COMMON_MIME_TYPES (toLowerCase ext) = none) :
    ∃ g, toFileWithPath (File.ofRaw f) p = .ok g ∧ g.type = f.type := by
  obtain ⟨t, hw, ht⟩ := toFileWithPath_ofRaw f p
  have hu : withMimeType (File.ofRaw f) = .ok (File.ofRaw f) := by
    apply withMimeType_ofRaw_unchanged
    rcases h with h | h | ⟨pre, ext, hname, hdot, hk⟩
    · exact Or.inl h
    · exact Or.inr (Or.inl h)
    · refine Or.inr (Or.inr ?_)
      intro last hl
      rw [hname, pop_split pre ext hdot] at hl
      cases hl
      exact hk
  rw [hu] at hw
  have htn : t = none := by
    injection hw with hw
    injection hw with _ h2 _
    exact h2.symm
  subst htn
  exact ⟨_, ht, rfl⟩

theorem toFileWithPath_type_unchanged_witness :
    (∃ g, toFileWithPath (File.ofRaw ⟨"test.png", "application/json", some "", []⟩) none = .ok g ∧
      g.type = "application/json") ∧
    (∃ g, toFileWithPath (File.ofRaw ⟨"README", "", some "", []⟩) none = .ok g ∧
      g.type = "") ∧
    (∃ g, toFileWithPath (File.ofRaw ⟨"a.png.bak", "", some "", []⟩) none = .ok g ∧
      g.type = "") :=
  ⟨toFileWithPath_type_unchanged ⟨"test.png", "application/json", some "", []⟩ none
      (Or.inl (by decide)),
    toFileWithPath_type_unchanged ⟨"README", "", some "", []⟩ none
      (Or.inr (Or.inl (by decide))),
    toFileWithPath_type_unchanged ⟨"a.png.bak", "", some "", []⟩ none
      (Or.inr (Or.inr ⟨"a.png", "bak", by decide, by decide, by decide⟩))⟩


/-- C4 (as stated) fails: the file `new File([], "")` decorated without an explicit
path gets the empty path, and so does any file decorated with the explicit path `""`. -/
theorem empty_path_reachable :
    toFileWithPath (File.ofRaw ⟨"", "", some "", []⟩) none =
      .ok { raw := ⟨"", "", some "", []⟩, ownType := none, ownPath := some "" } ∧
    toFileWithPath (File.ofRaw ⟨"a.txt", "", some "", []⟩) (some "") =
      .ok { raw := ⟨"a.txt", "", some "", []⟩, ownType := none, ownPath := some "" } := by
  constructor <;> rfl

/-- The `path` of a decorated raw file, and when it is empty. -/
theorem toFileWithPath_ofRaw_path (f : RawFile) (p : Option String) :
    ∃ g s, toFileWithPath (File.ofRaw f) p = .ok g ∧ g.path = some s ∧
      (s = "" ↔ (p = some "" ∨
        (p = none ∧ (f.webkitRelativePath = none ∨ f.webkitRelativePath = some "") ∧
          f.name = ""))) := by
  obtain ⟨t, _, ht⟩ := toFileWithPath_ofRaw f p
  refine ⟨_, _, ht, rfl, ?_⟩
  cases p with
  | some s => simp
  | none =>
    cases hw : f.webkitRelativePath with
    | none => simp
    | some w =>
      by_cases hne : w = ""
      · subst hne
        simp
      · simp [if_pos ((length_pos_iff_ne_empty w).mpr hne), hne]


/-! ## Lemmas on the resolution of a drag payload -/

theorem toFileWithPath_ofRaw_eq (raw : RawFile) (p : Option String) :
    toFileWithPath (File.ofRaw raw) p = .ok (decorated raw p) := by
  obtain ⟨t, _, ht⟩ := toFileWithPath_ofRaw raw p
  simp only [decorated, ht]

theorem decorated_raw (raw : RawFile) (p : Option String) : (decorated raw p).raw = raw := by
  obtain ⟨t, _, ht⟩ := toFileWithPath_ofRaw raw p
  simp only [decorated, ht]

theorem decorated_name (raw : RawFile) (p : Option String) :
    (decorated raw p).name = raw.name := by
  simp only [File.name, decorated_raw]

theorem decorated_path_some (raw : RawFile) (s : String) :
    (decorated raw (some s)).path = some s := by
  obtain ⟨t, _, ht⟩ := toFileWithPath_ofRaw raw (some s)
  simp only [decorated, ht, File.path]

theorem fromEvent_drag (evt : Event) (dt : DataTransfer) (hdt : evt.dataTransfer = some dt) :
    fromEvent evt = getDataTransferFiles dt evt.type := by
  simp only [fromEvent, hdt, isDragEvt, Option.isSome_some, if_true]

/-! ## C5, C9: the ignore-list and the drag phases other than the drop -/

/-- C5: when `fromEvent` resolves on a drag event of type `drop`, it resolves with
files, none of which is named `.DS_Store` or `Thumbs.db`. -/
theorem fromEvent_drop_ignores (evt : Event) (dt : DataTransfer) (r : Result)
    (hdt : evt.dataTransfer = some dt) (htype : evt.type = "drop")
    (h : fromEvent evt = .ok r) :
    ∃ fs, r = .files fs ∧ ∀ f ∈ fs, f.name ≠ ".DS_Store" ∧ f.name ≠ "Thumbs.db" := by
  rw [fromEvent_drag evt dt hdt, htype] at h
  simp only [getDataTransferFiles, if_true] at h
  split at h
  · cases h
  · injection h with h
    refine ⟨_, h.symm, ?_⟩
    intro f hf
    have hk := (List.mem_filter.mp hf).2
    simp [FILES_TO_IGNORE] at hk
    exact hk

theorem fromEvent_drop_ignores_witness :
    ∃ fs, Result.files
        [ ⟨⟨"a.png", "", some "", [1, 2]⟩, some "image/png", some "/photos/a.png"⟩,
          ⟨⟨"b.txt", "text/plain", some "", []⟩, none, some "/photos/b.txt"⟩,
          ⟨⟨"c.pdf", "", some "", [3]⟩, some "application/pdf", some "c.pdf"⟩ ] = .files fs ∧
      ∀ f ∈ fs, f.name ≠ ".DS_Store" ∧ f.name ≠ "Thumbs.db" :=
  fromEvent_drop_ignores sampleDrop _ _ rfl rfl rfl

/-- C9: on a drag event whose type is not `drop`, `fromEvent` resolves with the items
of the payload whose kind is `file`, in their order and as they are; it resolves
whatever the entries and files behind the items would do when read. -/
theorem fromEvent_not_drop (evt : Event) (dt : DataTransfer)
    (hdt : evt.dataTransfer = some dt) (htype : evt.type ≠ "drop") :
    fromEvent evt = .ok (.items (dt.items.filter (fun item => item.kind = "file"))) := by
  rw [fromEvent_drag evt dt hdt]
  simp only [getDataTransferFiles, if_neg htype]

theorem fromEvent_not_drop_witness :
    fromEvent sampleDragOver = .ok (.items
      [ { kind := "file", getAsFile := none, webkitGetAsEntry := some none },
        { kind := "file", getAsFile := none,
          webkitGetAsEntry := some (some (.dir "d" "/d" [] (some "NotReadableError"))) } ]) :=
  fromEvent_not_drop sampleDragOver _ rfl (by decide)


/-! ## Lemmas on `Promise.all`, `flatten` and the directory walk -/

theorem Promise.all_map_ok {α : Type} (vs : List α) :
    Promise.all (vs.map (Except.ok : α → Except String α)) = .ok vs := by
  induction vs with
  | nil => rfl
  | cons v vs ih => simp only [List.map_cons, Promise.all, ih]

theorem Promise.all_cons_ok {α : Type} (v : α) (ps : List (Except String α)) (vs : List α)
    (h : Promise.all ps = .ok vs) : Promise.all (.ok v :: ps) = .ok (v :: vs) := by
  simp only [Promise.all, h]

theorem Promise.all_cons_error {α : Type} (p : Except String α) (ps : List (Except String α))
    (e : String) (h : Promise.all ps = .error e) : ∃ e1, Promise.all (p :: ps) = .error e1 := by
  cases p with
  | error e1 => exact ⟨e1, by simp only [Promise.all]⟩
  | ok v => exact ⟨e, by simp only [Promise.all, h]⟩

theorem Promise.all_cons_inv {α : Type} (p : Except String α) (ps : List (Except String α))
    (ws : List α) (h : Promise.all (p :: ps) = .ok ws) :
    ∃ v vs, p = .ok v ∧ Promise.all ps = .ok vs ∧ ws = v :: vs := by
  cases p with
  | error e1 => simp [Promise.all] at h
  | ok v =>
    cases hps : Promise.all ps with
    | error e2 => simp [Promise.all, hps] at h
    | ok vs =>
      simp only [Promise.all, hps] at h
      injection h with h
      exact ⟨v, vs, rfl, rfl, h.symm⟩

theorem Promise.all_append_error {α : Type} (ps qs : List (Except String α)) (e : String)
    (h : Promise.all ps = .error e) : ∃ e1, Promise.all (ps ++ qs) = .error e1 := by
  induction ps generalizing e with
  | nil => simp [Promise.all] at h
  | cons p ps ih =>
    cases p with
    | error e1 => exact ⟨e1, by simp only [List.cons_append, Promise.all]⟩
    | ok v =>
      cases hps : Promise.all ps with
      | error e2 =>
        obtain ⟨e3, h3⟩ := ih e2 hps
        exact Promise.all_cons_error _ _ e3 h3
      | ok vs => simp [Promise.all, hps] at h

theorem Promise.all_append_ok {α : Type} (ps qs : List (Except String α)) (vs ws : List α)
    (h : Promise.all ps = .ok vs) (hq : Promise.all qs = .ok ws) :
    Promise.all (ps ++ qs) = .ok (vs ++ ws) := by
  induction ps generalizing vs with
  | nil =>
    simp only [Promise.all] at h
    cases h
    simpa using hq
  | cons p ps ih =>
    obtain ⟨v, us, hp, hps, hvs⟩ := Promise.all_cons_inv p ps vs h
    subst hp hvs
    exact Promise.all_cons_ok v _ _ (ih us hps)

theorem Promise.all_append_ok_error {α : Type} (ps qs : List (Except String α)) (vs : List α)
    (e : String) (h : Promise.all ps = .ok vs) (hq : Promise.all qs = .error e) :
    Promise.all (ps ++ qs) = .error e := by
  induction ps generalizing vs with
  | nil => simpa using hq
  | cons p ps ih =>
    obtain ⟨v, us, hp, hps, hvs⟩ := Promise.all_cons_inv p ps vs h
    subst hp hvs
    have h2 := ih us hps
    rw [List.cons_append]
    simp only [Promise.all, h2]

theorem flatten_append (xs ys : List Nested) :
    flatten (xs ++ ys) = flatten xs ++ flatten ys := by
  induction xs with
  | nil => simp [flatten]
  | cons x xs ih => simp [flatten, ih]

theorem flatten_map_leaf (fs : List File) : flatten (fs.map Nested.leaf) = fs := by
  induction fs with
  | nil => simp [flatten]
  | cons f fs ih => simp [flatten, flattenItem, ih]

/-- `flatten` is the reduction the source writes: a left fold from `[]` appending
each element's contribution. -/
theorem flatten_eq_foldl (items : List Nested) :
    flatten items = items.foldl (fun acc files => acc ++ flattenItem files) [] := by
  have h : ∀ (xs : List Nested) (acc : List File),
      xs.foldl (fun acc files => acc ++ flattenItem files) acc = acc ++ flatten xs := by
    intro xs
    induction xs with
    | nil => intro acc; simp [flatten]
    | cons x xs ih => intro acc; simp [flatten, ih]
  rw [h]; simp

theorem fromFileEntry_ok (name fullPath : String) (raw : RawFile) :
    fromFileEntry (.file name fullPath (.ok raw)) = .ok (decorated raw (some fullPath)) := by
  simp only [fromFileEntry, toFileWithPath_ofRaw_eq]

theorem createEmptyDirFile_eq (entry : Entry) :
    createEmptyDirFile entry =
      .ok (decorated ⟨entry.name, "", some "", []⟩ (some (entry.fullPath ++ "/"))) := by
  simp only [createEmptyDirFile, toFileWithPath_ofRaw_eq]

theorem fromDataTransferItem_some (item : DataTransferItem) (raw : RawFile)
    (h : item.getAsFile = some raw) :
    fromDataTransferItem item = .ok (decorated raw none) := by
  simp only [fromDataTransferItem, h, toFileWithPath_ofRaw_eq]

theorem doneReading_ok (entry : Entry) (ns : List Nested) (empty : Bool) :
    doneReading entry (ns.map .ok) empty =
      .ok (.arr (ns ++ if empty then
        [.arr [.leaf (decorated ⟨entry.name, "", some "", []⟩ (some (entry.fullPath ++ "/")))]]
        else [])) := by
  simp only [doneReading, Promise.all_map_ok, createEmptyDirFile_eq]
  cases empty <;> simp

theorem mapFromEntry_files (b : List Entry)
    (h : ∀ e ∈ b, ∃ name fullPath raw, e = Entry.file name fullPath (.ok raw)) :
    ∃ fs, Promise.all (mapFromEntry b) = .ok (fs.map Nested.leaf) ∧
      List.Forall₂ (fun e f => ∃ name fullPath raw,
        e = Entry.file name fullPath (.ok raw) ∧ f = decorated raw (some fullPath)) b fs := by
  induction b with
  | nil => exact ⟨[], by simp [mapFromEntry, Promise.all], List.Forall₂.nil⟩
  | cons e es ih =>
    obtain ⟨fs, hfs, hrel⟩ := ih (fun e1 he1 => h e1 (List.mem_cons_of_mem _ he1))
    obtain ⟨name, fullPath, raw, he⟩ := h e (List.mem_cons_self _ _)
    subst he
    refine ⟨decorated raw (some fullPath) :: fs, ?_, List.Forall₂.cons ⟨_, _, _, rfl, rfl⟩ hrel⟩
    simp only [mapFromEntry, fromEntry, fromFileEntry_ok, Except.map, List.map_cons]
    exact Promise.all_cons_ok _ _ _ hfs

theorem readEntries_files (entry : Entry) (batches : List (List Entry))
    (hread : ∀ b ∈ batches, b ≠ [])
    (hfiles : ∀ b ∈ batches, ∀ e ∈ b, ∃ name fullPath raw, e = Entry.file name fullPath (.ok raw))
    (acc : List Nested) (empty : Bool) :
    ∃ fs ns, List.Forall₂ (fun e f => ∃ name fullPath raw,
        e = Entry.file name fullPath (.ok raw) ∧ f = decorated raw (some fullPath))
        batches.flatten fs ∧
      flatten ns = fs ∧
      readEntries entry none batches (acc.map .ok) empty =
        doneReading entry ((acc ++ ns).map .ok) (empty && batches.isEmpty) := by
  induction batches generalizing acc empty with
  | nil =>
    refine ⟨[], [], List.Forall₂.nil, by simp [flatten], ?_⟩
    simp [readEntries]
  | cons b rest ih =>
    obtain ⟨fs, hfs, hrel⟩ := mapFromEntry_files b (hfiles b (List.mem_cons_self _ _))
    obtain ⟨fs1, ns1, hrel1, hflat1, hrun1⟩ :=
      ih (fun b1 hb1 => hread b1 (List.mem_cons_of_mem _ hb1))
        (fun b1 hb1 => hfiles b1 (List.mem_cons_of_mem _ hb1))
        (acc ++ [.arr (fs.map Nested.leaf)]) false
    have hb : b ≠ [] := hread b (List.mem_cons_self _ _)
    have hlen : ¬ b.length = 0 := by
      intro h0
      exact hb (List.length_eq_zero.mp h0)
    refine ⟨fs ++ fs1, .arr (fs.map Nested.leaf) :: ns1, ?_, ?_, ?_⟩
    · rw [List.flatten_cons]
      exact List.rel_append hrel hrel1
    · simp only [flatten, flattenItem, flatten_map_leaf, hflat1]
    · simp only [readEntries, if_neg hlen, hfs, Except.map]
      have hacc : List.map Except.ok acc ++ [Except.ok (Nested.arr (fs.map Nested.leaf))] =
          (List.map (Except.ok : Nested → Except String Nested)
            (acc ++ [Nested.arr (fs.map Nested.leaf)])) := by
        simp
      rw [hacc, hrun1]
      simp

/-- The walk of a directory that holds file entries only, each delivering its file,
in non-empty batches ended by the empty batch. -/
theorem fromDirEntry_files (name fullPath : String) (batches : List (List Entry))
    (hread : ∀ b ∈ batches, b ≠ [])
    (hfiles : ∀ b ∈ batches, ∀ e ∈ b, ∃ name fullPath raw, e = Entry.file name fullPath (.ok raw)) :
    ∃ fs n, List.Forall₂ (fun e f => ∃ name fullPath raw,
        e = Entry.file name fullPath (.ok raw) ∧ f = decorated raw (some fullPath))
        batches.flatten fs ∧
      fromDirEntry (.dir name fullPath batches none) = .ok n ∧
      flattenItem n = fs ++ if batches.isEmpty then
        [decorated ⟨name, "", some "", []⟩ (some (fullPath ++ "/"))] else [] := by
  obtain ⟨fs, ns, hrel, hflat, hrun⟩ :=
    readEntries_files (.dir name fullPath batches none) batches hread hfiles [] true
  simp only [List.map_nil, List.nil_append, Bool.true_and] at hrun
  rw [doneReading_ok] at hrun
  refine ⟨fs, _, hrel, hrun, ?_⟩
  simp only [flattenItem, flatten_append, hflat, Entry.name, Entry.fullPath]
  cases batches <;> simp [flatten, flattenItem]

theorem not_ignored (name : String) (h : name ≠ ".DS_Store" ∧ name ≠ "Thumbs.db") :
    (!FILES_TO_IGNORE.contains name) = true := by
  simp [FILES_TO_IGNORE, h.1, h.2]

theorem forall₂_mem_right {α β : Type} (R : α → β → Prop) (l : List α) (fs : List β)
    (h : List.Forall₂ R l fs) : ∀ f ∈ fs, ∃ e ∈ l, R e f := by
  induction h with
  | nil => intro f hf; cases hf
  | cons hr _ ih =>
    intro f hf
    rcases List.mem_cons.mp hf with hf | hf
    · subst hf
      exact ⟨_, List.mem_cons_self _ _, hr⟩
    · obtain ⟨e, he, hre⟩ := ih f hf
      exact ⟨e, List.mem_cons_of_mem _ he, hre⟩

theorem toFilePromises_dir (item : DataTransferItem) (name fullPath : String)
    (batches : List (List Entry)) (err : Option String)
    (h : item.webkitGetAsEntry = some (some (.dir name fullPath batches err))) :
    toFilePromises item = fromDirEntry (.dir name fullPath batches err) := by
  simp only [toFilePromises, h, Entry.isDirectory, if_true]

theorem toFilePromises_file (item : DataTransferItem) (raw : RawFile)
    (hfile : item.getAsFile = some raw)
    (hentry : ∀ e, item.webkitGetAsEntry = some (some e) → e.isDirectory = false) :
    toFilePromises item = .ok (.leaf (decorated raw none)) := by
  unfold toFilePromises
  rw [fromDataTransferItem_some item raw hfile]
  cases hw : item.webkitGetAsEntry with
  | none => rfl
  | some eo =>
    cases eo with
    | none => rfl
    | some e => simp [hentry e hw, Except.map]

/-- The files a directory of file entries contributes, kept by the ignore filter
when none of the delivered files has an ignored name. -/
theorem fromDirEntry_files_kept (name fullPath : String) (batches : List (List Entry))
    (hread : ∀ b ∈ batches, b ≠ [])
    (hfiles : ∀ b ∈ batches, ∀ e ∈ b, ∃ n p raw, e = Entry.file n p (.ok raw) ∧
      raw.name ≠ ".DS_Store" ∧ raw.name ≠ "Thumbs.db") :
    ∃ fs n, List.Forall₂ (fun e f => ∃ name fullPath raw,
        e = Entry.file name fullPath (.ok raw) ∧ f = decorated raw (some fullPath))
        batches.flatten fs ∧
      fromDirEntry (.dir name fullPath batches none) = .ok n ∧
      flattenItem n = fs ++ (if batches.isEmpty then
        [decorated ⟨name, "", some "", []⟩ (some (fullPath ++ "/"))] else []) ∧
      fs.filter (fun file => !FILES_TO_IGNORE.contains file.name) = fs := by
  obtain ⟨fs, n, hrel, hrun, hflat⟩ := fromDirEntry_files name fullPath batches hread
    (fun b hb e he => by
      obtain ⟨n, p, raw, h, _⟩ := hfiles b hb e he
      exact ⟨n, p, raw, h⟩)
  refine ⟨fs, n, hrel, hrun, hflat, ?_⟩
  rw [List.filter_eq_self]
  intro f hf
  obtain ⟨e, he, n1, p1, raw1, he1, hf1⟩ := forall₂_mem_right _ _ _ hrel f hf
  obtain ⟨b, hb, heb⟩ := List.mem_flatten.mp he
  obtain ⟨n2, p2, raw2, he2, hname⟩ := hfiles b hb e heb
  rw [he1] at he2
  injection he2 with _ _ hraw
  injection hraw with hraw
  subst hraw
  rw [hf1, decorated_name]
  exact not_ignored _ hname


/-! ## C6 – C8: dropped directories -/

/-- C6 (as stated) fails: a dropped empty directory named `.DS_Store` yields no file
at all, its placeholder being removed by the ignore-list filter. -/
theorem ignored_directory_placeholder_dropped :
    fromEvent
      { type := "drop", target := none,
        dataTransfer := some { items :=
          [ { kind := "file", getAsFile := none,
              webkitGetAsEntry := some (some (.dir ".DS_Store" "/.DS_Store" [] none)) } ] } } =
      .ok (.files []) := by
  rfl

/-- C6 (amended): for every `drop` event whose only item is a directory entry whose
reader's first batch is empty, whatever the directory's full path `P` and whatever
its name `d` other than `.DS_Store` and `Thumbs.db`, `fromEvent` returns exactly one
file; that file is named `d`, has zero-length content and has the path `P` followed
by `/`. -/
theorem fromEvent_drop_empty_directory (d P : String) (batches : List (List Entry))
    (err : Option String) (getAsFile : Option RawFile) (target : Option Target)
    (hempty : (batches = [] ∧ err = none) ∨ ∃ rest, batches = [] :: rest)
    (hd : d ≠ ".DS_Store" ∧ d ≠ "Thumbs.db") :
    ∃ f, fromEvent
        { type := "drop", target := target,
          dataTransfer := some { items :=
            [ { kind := "file", getAsFile := getAsFile,
                webkitGetAsEntry := some (some (.dir d P batches err)) } ] } } =
        .ok (.files [f]) ∧
      f.name = d ∧ f.size = 0 ∧ f.path = some (P ++ "/") := by
  have hrun : fromDirEntry (.dir d P batches err) =
      .ok (.arr [.arr [.leaf (decorated ⟨d, "", some "", []⟩ (some (P ++ "/")))]]) := by
    have hdone := doneReading_ok (.dir d P batches err) [] true
    simp only [List.map_nil, List.nil_append, if_true, Entry.name, Entry.fullPath] at hdone
    rcases hempty with ⟨hb, he⟩ | ⟨rest, hb⟩
    · subst hb he
      simp only [fromDirEntry, readEntries, hdone]
    · subst hb
      simp only [fromDirEntry, readEntries, List.length_nil, if_true, hdone]
  refine ⟨decorated ⟨d, "", some "", []⟩ (some (P ++ "/")), ?_, ?_, ?_, ?_⟩
  · have hitem := toFilePromises_dir
      { kind := "file", getAsFile := getAsFile,
        webkitGetAsEntry := some (some (.dir d P batches err)) } d P batches err rfl
    have hk := not_ignored (decorated ⟨d, "", some "", []⟩ (some (P ++ "/"))).name
      (by rw [decorated_name]; exact hd)
    rw [fromEvent_drag _ _ rfl]
    simp only [getDataTransferFiles, if_true, List.filter, decide_True, List.map_cons,
      List.map_nil, hitem, hrun, Promise.all, flatten, flattenItem, List.append_nil,
      List.nil_append, hk]
  · rw [decorated_name]
  · simp only [File.size, decorated_raw, List.length_nil]
  · exact decorated_path_some _ _

theorem fromEvent_drop_empty_directory_witness :
    ∃ f, fromEvent
        { type := "drop", target := none,
          dataTransfer := some { items :=
            [ { kind := "file", getAsFile := none,
                webkitGetAsEntry := some (some (.dir "empty" "/top/empty" [] none)) } ] } } =
        .ok (.files [f]) ∧
      f.name = "empty" ∧ f.size = 0 ∧ f.path = some ("/top/empty" ++ "/") :=
  fromEvent_drop_empty_directory "empty" "/top/empty" [] none none none
    (Or.inl ⟨rfl, rfl⟩) (by decide)

theorem forall₂_imp_mem {α β : Type} (R S : α → β → Prop) (l : List α) (fs : List β)
    (h : List.Forall₂ R l fs) (himp : ∀ e ∈ l, ∀ f, R e f → S e f) : List.Forall₂ S l fs := by
  induction h with
  | nil => exact List.Forall₂.nil
  | cons hr _ ih =>
    exact List.Forall₂.cons (himp _ (List.mem_cons_self _ _) _ hr)
      (ih (fun e he f hf => himp e (List.mem_cons_of_mem _ he) f hf))

/-- C7 (as stated) fails at `N = 0`: a dropped directory with no entry yields one
file, its placeholder, not zero files. -/
theorem entryless_directory_yields_placeholder :
    fromEvent
      { type := "drop", target := none,
        dataTransfer := some { items :=
          [ { kind := "file", getAsFile := none,
              webkitGetAsEntry := some (some (.dir "photos" "/photos" [] none)) } ] } } =
      .ok (.files [⟨⟨"photos", "", some "", []⟩, none, some "/photos/"⟩]) := by
  rfl

/-- C7 (amended): for every `N ≥ 1` and every `drop` event whose only item is a
directory with full path `D` holding exactly `N` file entries (no subdirectory),
each with full path `D/name` and each delivering a file not named `.DS_Store` or
`Thumbs.db`, however the reader splits them into non-empty batches ended by the empty
batch: `fromEvent` returns exactly `N` files, in the order of the entries, the file of
each entry being the file the entry delivered with path `D/name`. -/
theorem fromEvent_drop_directory_files (d D : String) (batches : List (List Entry))
    (getAsFile : Option RawFile) (target : Option Target) (N : Nat)
    (hread : ∀ b ∈ batches, b ≠ [])
    (hfiles : ∀ b ∈ batches, ∀ e ∈ b, ∃ name raw,
      e = Entry.file name (D ++ "/" ++ name) (.ok raw) ∧
      raw.name ≠ ".DS_Store" ∧ raw.name ≠ "Thumbs.db")
    (hN : batches.flatten.length = N) (hpos : 1 ≤ N) :
    ∃ fs, fromEvent
        { type := "drop", target := target,
          dataTransfer := some { items :=
            [ { kind := "file", getAsFile := getAsFile,
                webkitGetAsEntry := some (some (.dir d D batches none)) } ] } } =
        .ok (.files fs) ∧
      fs.length = N ∧
      List.Forall₂ (fun e f => ∃ name raw,
        e = Entry.file name (D ++ "/" ++ name) (.ok raw) ∧ f.raw = raw ∧
        f.path = some (D ++ "/" ++ name)) batches.flatten fs := by
  obtain ⟨fs, n, hrel, hrun, hflat, hkeep⟩ := fromDirEntry_files_kept d D batches hread
    (fun b hb e he => by
      obtain ⟨name, raw, h, hn⟩ := hfiles b hb e he
      exact ⟨name, _, raw, h, hn⟩)
  have hne : batches.isEmpty = false := by
    cases batches with
    | nil => simp at hN; omega
    | cons b rest => rfl
  rw [hne] at hflat
  simp only [Bool.false_eq_true, if_false, List.append_nil] at hflat
  have hitem := toFilePromises_dir
    { kind := "file", getAsFile := getAsFile,
      webkitGetAsEntry := some (some (.dir d D batches none)) } d D batches none rfl
  refine ⟨fs, ?_, ?_, ?_⟩
  · rw [fromEvent_drag _ _ rfl]
    simp only [getDataTransferFiles, if_true, List.filter, decide_True, List.map_cons,
      List.map_nil, hitem, hrun, Promise.all, flatten, hflat, List.append_nil, hkeep]
  · rw [← hN, hrel.length_eq]
  · refine forall₂_imp_mem _ _ _ _ hrel ?_
    intro e he f hf
    obtain ⟨n1, p1, raw1, he1, hf1⟩ := hf
    obtain ⟨b, hb, heb⟩ := List.mem_flatten.mp he
    obtain ⟨name, raw, he2, _⟩ := hfiles b hb e heb
    rw [he1] at he2
    injection he2 with hn hp hraw
    injection hraw with hraw
    subst hn hp hraw
    exact ⟨n1, raw1, he1, by rw [hf1, decorated_raw], by rw [hf1, decorated_path_some]⟩

theorem fromEvent_drop_directory_files_witness :
    ∃ fs, fromEvent
        { type := "drop", target := none,
          dataTransfer := some { items :=
            [ { kind := "file", getAsFile := none,
                webkitGetAsEntry := some (some (.dir "docs" "/docs"
                  [ [ .file "a.pdf" ("/docs" ++ "/" ++ "a.pdf") (.ok ⟨"a.pdf", "", some "", [1]⟩),
                      .file "b" ("/docs" ++ "/" ++ "b") (.ok ⟨"b", "", some "", []⟩) ],
                    [ .file "c.txt" ("/docs" ++ "/" ++ "c.txt")
                        (.ok ⟨"c.txt", "", some "", [2]⟩) ] ]
                  none)) } ] } } =
        .ok (.files fs) ∧
      fs.length = 3 ∧
      List.Forall₂ (fun e f => ∃ name raw,
        e = Entry.file name ("/docs" ++ "/" ++ name) (.ok raw) ∧ f.raw = raw ∧
        f.path = some ("/docs" ++ "/" ++ name))
        [ .file "a.pdf" ("/docs" ++ "/" ++ "a.pdf") (.ok ⟨"a.pdf", "", some "", [1]⟩),
          .file "b" ("/docs" ++ "/" ++ "b") (.ok ⟨"b", "", some "", []⟩),
          .file "c.txt" ("/docs" ++ "/" ++ "c.txt") (.ok ⟨"c.txt", "", some "", [2]⟩) ] fs :=
  fromEvent_drop_directory_files "docs" "/docs" _ none none 3
    (by simp)
    (by
      intro b hb e he
      simp only [List.mem_cons, List.mem_singleton, List.not_mem_nil, or_false] at hb
      rcases hb with hb | hb <;> subst hb <;>
        simp only [List.mem_cons, List.mem_singleton, List.not_mem_nil, or_false] at he
      · rcases he with he | he <;> subst he
        · exact ⟨"a.pdf", _, rfl, by decide, by decide⟩
        · exact ⟨"b", _, rfl, by decide, by decide⟩
      · subst he
        exact ⟨"c.txt", _, rfl, by decide, by decide⟩)
    rfl (by decide)

theorem getDataTransferFiles_drop_of (dt : DataTransfer) (ns : List Nested)
    (h : Promise.all ((dt.items.filter (fun item => item.kind = "file")).map toFilePromises) =
      .ok ns) :
    getDataTransferFiles dt "drop" =
      .ok (.files ((flatten ns).filter (fun file => !FILES_TO_IGNORE.contains file.name))) := by
  simp only [getDataTransferFiles, if_true, h]

/-- C8 (as stated) fails: a top-level file named `Thumbs.db` dropped together with a
directory of `M = 2` files yields 2 files, not `1 + max 2 1 = 3`. -/
theorem ignored_top_level_file_dropped :
    fromEvent
      { type := "drop", target := none,
        dataTransfer := some { items :=
          [ { kind := "file", getAsFile := some ⟨"Thumbs.db", "", some "", [7]⟩,
              webkitGetAsEntry := none },
            { kind := "file", getAsFile := none,
              webkitGetAsEntry := some (some (.dir "docs" "/docs"
                [ [ .file "a.pdf" "/docs/a.pdf" (.ok ⟨"a.pdf", "", some "", [1]⟩),
                    .file "b" "/docs/b" (.ok ⟨"b", "", some "", []⟩) ] ]
                none)) } ] } } =
      .ok (.files
        [ ⟨⟨"a.pdf", "", some "", [1]⟩, some "application/pdf", some "/docs/a.pdf"⟩,
          ⟨⟨"b", "", some "", []⟩, none, some "/docs/b"⟩ ]) := by
  rfl

/-- C8 (amended): for every `M` and every `drop` event whose top-level items are, in
either order, one file (an item that delivers its file through `getAsFile` and is not
a directory entry) and one directory holding `M` file entries read in non-empty
batches ended by the empty batch, when every entry delivers its file and none of the
files is named `.DS_Store` or `Thumbs.db` (nor the directory, when `M = 0`):
`fromEvent` returns `1 + max M 1` files. -/
theorem fromEvent_drop_file_and_directory (raw : RawFile) (entry : Option (Option Entry))
    (d D : String) (batches : List (List Entry)) (getAsFile : Option RawFile)
    (target : Option Target) (items : List DataTransferItem) (M : Nat)
    (hitems :
      items =
        [ { kind := "file", getAsFile := some raw, webkitGetAsEntry := entry },
          { kind := "file", getAsFile := getAsFile,
            webkitGetAsEntry := some (some (.dir d D batches none)) } ] ∨
      items =
        [ { kind := "file", getAsFile := getAsFile,
            webkitGetAsEntry := some (some (.dir d D batches none)) },
          { kind := "file", getAsFile := some raw, webkitGetAsEntry := entry } ])
    (hentry : ∀ e, entry = some (some e) → e.isDirectory = false)
    (hraw : raw.name ≠ ".DS_Store" ∧ raw.name ≠ "Thumbs.db")
    (hread : ∀ b ∈ batches, b ≠ [])
    (hfiles : ∀ b ∈ batches, ∀ e ∈ b, ∃ name fullPath r,
      e = Entry.file name fullPath (.ok r) ∧ r.name ≠ ".DS_Store" ∧ r.name ≠ "Thumbs.db")
    (hM : batches.flatten.length = M)
    (hd : M = 0 → d ≠ ".DS_Store" ∧ d ≠ "Thumbs.db") :
    ∃ fs, fromEvent { type := "drop", target := target, dataTransfer := some { items := items } } =
        .ok (.files fs) ∧
      fs.length = 1 + max M 1 := by
  obtain ⟨fs, n, hrel, hrun, hflat, hkeep⟩ := fromDirEntry_files_kept d D batches hread hfiles
  have hdir := toFilePromises_dir
    { kind := "file", getAsFile := getAsFile,
      webkitGetAsEntry := some (some (.dir d D batches none)) } d D batches none rfl
  have hfile := toFilePromises_file
    { kind := "file", getAsFile := some raw, webkitGetAsEntry := entry } raw rfl hentry
  have hk := not_ignored (decorated raw none).name (by rw [decorated_name]; exact hraw)
  have hlen : ((flattenItem n).filter (fun file => !FILES_TO_IGNORE.contains file.name)).length =
      max M 1 := by
    rw [hflat, List.filter_append, hkeep, List.length_append, hrel.length_eq.symm, hM]
    cases batches with
    | nil =>
      simp only [List.flatten_nil, List.length_nil] at hM
      subst hM
      have hp := not_ignored (decorated ⟨d, "", some "", []⟩ (some (D ++ "/"))).name
        (by rw [decorated_name]; exact hd rfl)
      simp only [List.isEmpty_nil, if_true, List.filter, hp]
      rfl
    | cons b rest =>
      have hb : b ≠ [] := hread b (List.mem_cons_self _ _)
      have hpos : 1 ≤ M := by
        rw [← hM, List.flatten_cons, List.length_append]
        have := List.length_pos.mpr hb
        omega
      simp only [List.isEmpty_cons, Bool.false_eq_true, if_false, List.filter_nil,
        List.length_nil]
      omega
  have hcons : ∀ l : List File,
      List.filter (fun file => !FILES_TO_IGNORE.contains file.name) (decorated raw none :: l) =
        decorated raw none :: List.filter (fun file => !FILES_TO_IGNORE.contains file.name) l := by
    intro l
    simp only [List.filter, hk]
  rcases hitems with hi | hi
  · subst hi
    refine ⟨(flatten [.leaf (decorated raw none), n]).filter
      (fun file => !FILES_TO_IGNORE.contains file.name), ?_, ?_⟩
    · rw [fromEvent_drag _ _ rfl]
      apply getDataTransferFiles_drop_of
      simp only [List.filter, decide_True, List.map_cons, List.map_nil, hdir, hfile, hrun,
        Promise.all]
    · simp only [flatten, flattenItem, List.append_nil, List.cons_append, List.nil_append]
      rw [hcons, List.length_cons, hlen]
      omega
  · subst hi
    refine ⟨(flatten [n, .leaf (decorated raw none)]).filter
      (fun file => !FILES_TO_IGNORE.contains file.name), ?_, ?_⟩
    · rw [fromEvent_drag _ _ rfl]
      apply getDataTransferFiles_drop_of
      simp only [List.filter, decide_True, List.map_cons, List.map_nil, hdir, hfile, hrun,
        Promise.all]
    · simp only [flatten, flattenItem, List.append_nil]
      rw [List.filter_append, List.length_append, hlen, hcons]
      simp only [List.filter_nil, List.length_cons, List.length_nil]
      omega

theorem fromEvent_drop_file_and_directory_witness :
    (∃ fs, fromEvent
        { type := "drop", target := none,
          dataTransfer := some { items :=
            [ { kind := "file", getAsFile := some ⟨"c.pdf", "", some "", [3]⟩,
                webkitGetAsEntry := none },
              { kind := "file", getAsFile := none,
                webkitGetAsEntry := some (some (.dir "docs" "/docs"
                  [ [ .file "a.pdf" "/docs/a.pdf" (.ok ⟨"a.pdf", "", some "", [1]⟩) ],
                    [ .file "b" "/docs/b" (.ok ⟨"b", "", some "", []⟩) ] ]
                  none)) } ] } } =
        .ok (.files fs) ∧
      fs.length = 1 + max 2 1) ∧
    (∃ fs, fromEvent
        { type := "drop", target := none,
          dataTransfer := some { items :=
            [ { kind := "file", getAsFile := none,
                webkitGetAsEntry := some (some (.dir "docs" "/docs" [] none)) },
              { kind := "file", getAsFile := some ⟨"c.pdf", "", some "", [3]⟩,
                webkitGetAsEntry := some none } ] } } =
        .ok (.files fs) ∧
      fs.length = 1 + max 0 1) :=
  ⟨fromEvent_drop_file_and_directory ⟨"c.pdf", "", some "", [3]⟩ none "docs" "/docs" _ none none
      _ 2 (Or.inl rfl) (by intro e he; cases he) (by decide) (by simp)
      (by
        intro b hb e he
        simp only [List.mem_cons, List.mem_singleton, List.not_mem_nil, or_false] at hb
        rcases hb with hb | hb <;> subst hb <;>
          simp only [List.mem_singleton] at he <;> subst he
        · exact ⟨_, _, _, rfl, by decide, by decide⟩
        · exact ⟨_, _, _, rfl, by decide, by decide⟩)
      rfl (by intro h; cases h),
    fromEvent_drop_file_and_directory ⟨"c.pdf", "", some "", [3]⟩ (some none) "docs" "/docs" [] none
      none _ 0 (Or.inr rfl) (by intro e he; cases he) (by decide) (by simp) (by simp) rfl
      (by intro _; decide)⟩


/-! ## C10: rejection -/

theorem Promise.all_snoc_error {α : Type} (ps : List (Except String α)) (e : String) :
    ∃ e1, Promise.all (ps ++ [.error e]) = .error e1 := by
  cases h : Promise.all ps with
  | error e2 => exact Promise.all_append_error ps _ e2 h
  | ok vs => exact ⟨e, Promise.all_append_ok_error ps _ vs e h (by simp only [Promise.all])⟩

theorem doneReading_error (entry : Entry) (entries : List (Except String Nested)) (empty : Bool)
    (e : String) (h : Promise.all entries = .error e) :
    doneReading entry entries empty = .error e := by
  simp only [doneReading, h]

theorem readEntries_error_of_entries (entry : Entry) (err : Option String)
    (batches : List (List Entry)) (entries : List (Except String Nested)) (empty : Bool)
    (e : String) (h : Promise.all entries = .error e) :
    ∃ r, readEntries entry err batches entries empty = .error r := by
  induction batches generalizing entries empty e with
  | nil =>
    cases err with
    | none => exact ⟨e, by simp only [readEntries, doneReading_error _ _ _ e h]⟩
    | some x => exact ⟨x, by simp only [readEntries]⟩
  | cons b rest ih =>
    by_cases hb : b.length = 0
    · exact ⟨e, by simp only [readEntries, if_pos hb, doneReading_error _ _ _ e h]⟩
    · obtain ⟨e1, h1⟩ := Promise.all_append_error entries
        [(Promise.all (mapFromEntry b)).map Nested.arr] e h
      obtain ⟨r, hr⟩ := ih _ false e1 h1
      exact ⟨r, by simp only [readEntries, if_neg hb, hr]⟩

theorem readEntries_error_of_reader (entry : Entry) (reason : String)
    (batches : List (List Entry)) (hread : ∀ b ∈ batches, b ≠ [])
    (entries : List (Except String Nested)) (empty : Bool) :
    ∃ r, readEntries entry (some reason) batches entries empty = .error r := by
  induction batches generalizing entries empty with
  | nil => exact ⟨reason, by simp only [readEntries]⟩
  | cons b rest ih =>
    have hb : ¬ b.length = 0 := fun h0 =>
      hread b (List.mem_cons_self _ _) (List.length_eq_zero.mp h0)
    obtain ⟨r, hr⟩ := ih (fun b1 hb1 => hread b1 (List.mem_cons_of_mem _ hb1))
      (entries ++ [(Promise.all (mapFromEntry b)).map Nested.arr]) false
    exact ⟨r, by simp only [readEntries, if_neg hb, hr]⟩

theorem mapFromEntry_error (b : List Entry) (e : Entry) (r : String) (he : e ∈ b)
    (h : fromEntry e = .error r) : ∃ r1, Promise.all (mapFromEntry b) = .error r1 := by
  induction b with
  | nil => cases he
  | cons x xs ih =>
    rcases List.mem_cons.mp he with hx | hx
    · subst hx
      exact ⟨r, by simp only [mapFromEntry, h, Promise.all]⟩
    · obtain ⟨r1, h1⟩ := ih hx
      exact Promise.all_cons_error _ _ r1 (by simpa only [mapFromEntry] using h1)

theorem readEntries_error_of_child (entry : Entry) (err : Option String)
    (before : List (List Entry)) (batch : List Entry) (after : List (List Entry))
    (e : Entry) (r : String) (hread : ∀ b ∈ before, b ≠ []) (he : e ∈ batch)
    (h : fromEntry e = .error r) (entries : List (Except String Nested)) (empty : Bool) :
    ∃ r1, readEntries entry err (before ++ batch :: after) entries empty = .error r1 := by
  induction before generalizing entries empty with
  | nil =>
    have hb : ¬ batch.length = 0 := fun h0 => by
      rw [List.length_eq_zero.mp h0] at he
      cases he
    obtain ⟨r1, h1⟩ := mapFromEntry_error batch e r he h
    obtain ⟨r2, h2⟩ := Promise.all_snoc_error entries r1
    obtain ⟨r3, h3⟩ := readEntries_error_of_entries entry err after
      (entries ++ [.error r1]) false r2 h2
    refine ⟨r3, ?_⟩
    simp only [List.nil_append, readEntries, if_neg hb, h1, Except.map]
    exact h3
  | cons b rest ih =>
    have hb : ¬ b.length = 0 := fun h0 =>
      hread b (List.mem_cons_self _ _) (List.length_eq_zero.mp h0)
    obtain ⟨r1, h1⟩ := ih (fun b1 hb1 => hread b1 (List.mem_cons_of_mem _ hb1))
      (entries ++ [(Promise.all (mapFromEntry b)).map Nested.arr]) false
    refine ⟨r1, ?_⟩
    rw [List.cons_append]
    simp only [readEntries, if_neg hb]
    exact h1

/-- A failing entry makes `fromEntry` reject. -/
theorem fromEntry_error_of_fails (e : Entry) (h : e.Fails) : ∃ r, fromEntry e = .error r := by
  induction h with
  | file name fullPath reason =>
    exact ⟨reason, by simp only [fromEntry, fromFileEntry, Except.map]⟩
  | reader name fullPath batches reason hread =>
    obtain ⟨r, hr⟩ := readEntries_error_of_reader (.dir name fullPath batches (some reason))
      reason batches hread [] true
    exact ⟨r, by simp only [fromEntry, hr]⟩
  | child name fullPath before batch after err e hread hmem _ ih =>
    obtain ⟨r, hr⟩ := ih
    obtain ⟨r1, h1⟩ := readEntries_error_of_child
      (.dir name fullPath (before ++ batch :: after) err) err before batch after e r hread hmem
      hr [] true
    exact ⟨r1, by simp only [fromEntry, h1]⟩

mutual
/-- A rejected `fromEntry` comes from a failing entry. -/
theorem fails_of_fromEntry_error : ∀ (e : Entry) (r : String),
    fromEntry e = .error r → e.Fails
  | .file name fullPath (.error reason), _, _ => Entry.Fails.file name fullPath reason
  | .file name fullPath (.ok raw), r, h => by
    simp only [fromEntry, fromFileEntry_ok, Except.map] at h
    cases h
  | .dir name fullPath batches err, r, h => by
    simp only [fromEntry] at h
    exact fails_of_readEntries_error name fullPath batches err batches [] [] true r
      rfl (fun b hb => by cases hb) h
/-- A rejected `readEntries` loop comes from a failing directory. -/
theorem fails_of_readEntries_error (name fullPath : String) (all : List (List Entry))
    (err : Option String) :
    ∀ (rest before : List (List Entry)) (acc : List Nested) (empty : Bool) (r : String),
    all = before ++ rest → (∀ b ∈ before, b ≠ []) →
    readEntries (.dir name fullPath all err) err rest (acc.map .ok) empty = .error r →
    (Entry.dir name fullPath all err).Fails
  | [], before, acc, empty, r, hall, hread, h => by
    cases err with
    | none =>
      simp only [readEntries, doneReading_ok] at h
      cases h
    | some reason =>
      rw [List.append_nil] at hall
      subst hall
      exact Entry.Fails.reader name fullPath _ reason hread
  | b :: rest, before, acc, empty, r, hall, hread, h => by
    by_cases hb : b.length = 0
    · simp only [readEntries, if_pos hb, doneReading_ok] at h
      cases h
    · cases hp : Promise.all (mapFromEntry b) with
      | error r1 =>
        obtain ⟨e, he, hf⟩ := fails_of_mapFromEntry_error b r1 hp
        subst hall
        exact Entry.Fails.child name fullPath before b rest err e hread he hf
      | ok ns =>
        simp only [readEntries, if_neg hb, hp, Except.map] at h
        have hacc : List.map Except.ok acc ++ [Except.ok (Nested.arr ns)] =
            (List.map (Except.ok : Nested → Except String Nested) (acc ++ [Nested.arr ns])) := by
          simp
        rw [hacc] at h
        refine fails_of_readEntries_error name fullPath all err rest (before ++ [b])
          (acc ++ [Nested.arr ns]) false r (by simp [hall]) ?_ h
        intro b1 hb1
        rcases List.mem_append.mp hb1 with h1 | h1
        · exact hread b1 h1
        · rw [List.mem_singleton.mp h1]
          exact fun h0 => hb (by rw [h0]; rfl)
/-- A rejected batch holds a failing entry. -/
theorem fails_of_mapFromEntry_error : ∀ (b : List Entry) (r : String),
    Promise.all (mapFromEntry b) = .error r → ∃ e ∈ b, e.Fails
  | [], r, h => by
    simp [mapFromEntry, Promise.all] at h
  | e :: es, r, h => by
    cases he : fromEntry e with
    | error r1 =>
      exact ⟨e, List.mem_cons_self _ _, fails_of_fromEntry_error e r1 he⟩
    | ok n =>
      cases hes : Promise.all (mapFromEntry es) with
      | error r2 =>
        obtain ⟨e1, hmem, hf⟩ := fails_of_mapFromEntry_error es r2 hes
        exact ⟨e1, List.mem_cons_of_mem _ hmem, hf⟩
      | ok ns =>
        simp [mapFromEntry, Promise.all, he, hes] at h
end

theorem Promise.all_error_iff {α : Type} (ps : List (Except String α)) :
    (∃ r, Promise.all ps = .error r) ↔ ∃ p ∈ ps, ∃ r, p = .error r := by
  induction ps with
  | nil => simp [Promise.all]
  | cons p ps ih =>
    cases p with
    | error e =>
      constructor
      · intro _
        exact ⟨_, List.mem_cons_self _ _, e, rfl⟩
      · intro _
        exact ⟨e, by simp only [Promise.all]⟩
    | ok v =>
      constructor
      · rintro ⟨r, hr⟩
        cases hps : Promise.all ps with
        | error e2 =>
          obtain ⟨q, hq, hqe⟩ := ih.mp ⟨e2, hps⟩
          exact ⟨q, List.mem_cons_of_mem _ hq, hqe⟩
        | ok vs => simp [Promise.all, hps] at hr
      · rintro ⟨q, hq, r, hqe⟩
        rcases List.mem_cons.mp hq with h1 | h1
        · rw [hqe] at h1
          cases h1
        · obtain ⟨r1, hr1⟩ := ih.mpr ⟨q, h1, r, hqe⟩
          exact Promise.all_cons_error _ _ r1 hr1

theorem fromDirEntry_dir (name fullPath : String) (batches : List (List Entry))
    (err : Option String) :
    fromDirEntry (.dir name fullPath batches err) = fromEntry (.dir name fullPath batches err) := by
  simp only [fromDirEntry, fromEntry]

theorem toFilePromises_error_iff (item : DataTransferItem) :
    (∃ r, toFilePromises item = .error r) ↔ item.Fails := by
  have hfile : (∃ r, (fromDataTransferItem item).map Nested.leaf = .error r) ↔
      item.getAsFile = none := by
    cases hg : item.getAsFile with
    | none => simp [fromDataTransferItem, hg, Except.map]
    | some raw => simp [fromDataTransferItem_some item raw hg, Except.map]
  unfold toFilePromises DataTransferItem.Fails DataTransferItem.dirEntry
  cases hw : item.webkitGetAsEntry with
  | none => exact hfile
  | some eo =>
    cases eo with
    | none => exact hfile
    | some e =>
      cases e with
      | file name fullPath file =>
        simp only [Entry.isDirectory, Bool.false_eq_true, if_false]
        exact hfile
      | dir name fullPath batches err =>
        simp only [Entry.isDirectory, if_true, fromDirEntry_dir]
        exact ⟨fun ⟨r, hr⟩ => fails_of_fromEntry_error _ r hr, fromEntry_error_of_fails _⟩

/-- C10: on a `drop` event, `fromEvent` rejects exactly when something fails during
the resolution of one of the items of kind `file` (a `getAsFile` that yields no file,
a directory reader that reports an error at any depth, a file entry whose `file()`
reports an error), whatever the other items do; and it resolves with files exactly
when nothing fails. -/
theorem fromEvent_drop_rejects_iff (evt : Event) (dt : DataTransfer)
    (hdt : evt.dataTransfer = some dt) (htype : evt.type = "drop") :
    ((∃ reason, fromEvent evt = .error reason) ↔
      ∃ item ∈ dt.items, item.kind = "file" ∧ item.Fails) ∧
    ((∃ fs, fromEvent evt = .ok (.files fs)) ↔
      ∀ item ∈ dt.items, item.kind = "file" → ¬ item.Fails) := by
  have hiff : (∃ r, Promise.all
      ((dt.items.filter (fun item => item.kind = "file")).map toFilePromises) = .error r) ↔
      ∃ item ∈ dt.items, item.kind = "file" ∧ item.Fails := by
    rw [Promise.all_error_iff]
    constructor
    · rintro ⟨p, hp, r, hr⟩
      obtain ⟨item, hitem, hpi⟩ := List.mem_map.mp hp
      have hmem := List.mem_filter.mp hitem
      refine ⟨item, hmem.1, by simpa using hmem.2, ?_⟩
      exact (toFilePromises_error_iff item).mp ⟨r, by rw [hpi, hr]⟩
    · rintro ⟨item, hmem, hkind, hf⟩
      obtain ⟨r, hr⟩ := (toFilePromises_error_iff item).mpr hf
      exact ⟨_, List.mem_map.mpr ⟨item, List.mem_filter.mpr ⟨hmem, by simpa using hkind⟩, rfl⟩,
        r, hr⟩
  rw [fromEvent_drag evt dt hdt, htype]
  cases hp : Promise.all
      ((dt.items.filter (fun item => item.kind = "file")).map toFilePromises) with
  | error r =>
    have hfail := hiff.mp ⟨r, hp⟩
    have hrun : getDataTransferFiles dt "drop" = .error r := by
      simp only [getDataTransferFiles, if_true, hp]
    rw [hrun]
    constructor
    · exact ⟨fun _ => hfail, fun _ => ⟨r, rfl⟩⟩
    · constructor
      · rintro ⟨fs, hfs⟩
        cases hfs
      · intro hnone
        obtain ⟨item, hmem, hkind, hf⟩ := hfail
        exact absurd hf (hnone item hmem hkind)
  | ok ns =>
    rw [getDataTransferFiles_drop_of dt ns hp]
    have hnofail : ¬ ∃ item ∈ dt.items, item.kind = "file" ∧ item.Fails := by
      intro hex
      obtain ⟨r, hr⟩ := hiff.mpr hex
      rw [hp] at hr
      cases hr
    constructor
    · constructor
      · rintro ⟨reason, hr⟩
        cases hr
      · intro hex
        exact absurd hex hnofail
    · constructor
      · intro _ item hmem hkind hf
        exact hnofail ⟨item, hmem, hkind, hf⟩
      · intro _
        exact ⟨_, rfl⟩

theorem fromEvent_drop_rejects_iff_witness :
    (∃ reason, fromEvent sampleFailingDrop = .error reason) ∧
    (∃ fs, fromEvent sampleDrop = .ok (.files fs)) := by
  constructor
  · refine (fromEvent_drop_rejects_iff sampleFailingDrop _ rfl rfl).1.mpr ?_
    refine ⟨_, List.mem_cons_of_mem _ (List.mem_cons_self _ _), rfl, ?_⟩
    exact Entry.Fails.child "a" "/a" [] _ [] none _ (fun b hb => by cases hb)
      (List.mem_cons_of_mem _ (List.mem_cons_self _ _))
      (Entry.Fails.child "b" "/a/b" [] _ [] none _ (fun b hb => by cases hb)
        (List.mem_cons_self _ _) (Entry.Fails.file "x" "/a/b/x" "NotFoundError"))
  · refine (fromEvent_drop_rejects_iff sampleDrop _ rfl rfl).2.mpr ?_
    intro item hmem hkind hf
    obtain ⟨r, hr⟩ := (toFilePromises_error_iff item).mpr hf
    simp only [sampleDrop, List.mem_cons, List.mem_singleton, List.not_mem_nil, or_false] at hmem
    rcases hmem with h | h | h | h <;> subst h <;>
      first | exact absurd hkind (by decide) | cases hr


theorem flattenItem_doneReading (entry : Entry) (acc : List Nested) (empty : Bool) (n : Nested)
    (h : doneReading entry (acc.map .ok) empty = .ok n) :
    flattenItem n = flatten acc ++ if empty then
      [decorated ⟨entry.name, "", some "", []⟩ (some (entry.fullPath ++ "/"))] else [] := by
  rw [doneReading_ok] at h
  injection h with h
  subst h
  cases empty <;> simp [flattenItem, flatten_append, flatten]

mutual
/-- Every file of a resolved entry is a platform file decorated by `toFileWithPath`. -/
theorem fromEntry_leaves : ∀ (e : Entry) (n : Nested), fromEntry e = .ok n →
    ∀ f ∈ flattenItem n, ∃ raw p, f = decorated raw p
  | .file name fullPath (.error reason), n, h => by
    simp [fromEntry, fromFileEntry, Except.map] at h
  | .file name fullPath (.ok raw), n, h => by
    simp only [fromEntry, fromFileEntry_ok, Except.map] at h
    injection h with h
    subst h
    intro f hf
    simp only [flattenItem, List.mem_singleton] at hf
    exact ⟨raw, some fullPath, hf⟩
  | .dir name fullPath batches err, n, h => by
    simp only [fromEntry] at h
    exact readEntries_leaves (.dir name fullPath batches err) err batches [] true n
      (fun f hf => by simp [flatten] at hf) h
/-- Every file of a resolved `readEntries` loop is a decorated platform file. -/
theorem readEntries_leaves (entry : Entry) (err : Option String) :
    ∀ (rest : List (List Entry)) (acc : List Nested) (empty : Bool) (n : Nested),
    (∀ f ∈ flatten acc, ∃ raw p, f = decorated raw p) →
    readEntries entry err rest (acc.map .ok) empty = .ok n →
    ∀ f ∈ flattenItem n, ∃ raw p, f = decorated raw p
  | [], acc, empty, n, hacc, h => by
    cases err with
    | some reason => simp [readEntries] at h
    | none =>
      simp only [readEntries] at h
      rw [flattenItem_doneReading entry acc empty n h]
      intro f hf
      rcases List.mem_append.mp hf with h1 | h1
      · exact hacc f h1
      · cases empty with
        | false => simp at h1
        | true =>
          simp only [if_true, List.mem_singleton] at h1
          exact ⟨_, _, h1⟩
  | b :: rest, acc, empty, n, hacc, h => by
    by_cases hb : b.length = 0
    · simp only [readEntries, if_pos hb] at h
      rw [flattenItem_doneReading entry acc empty n h]
      intro f hf
      rcases List.mem_append.mp hf with h1 | h1
      · exact hacc f h1
      · cases empty with
        | false => simp at h1
        | true =>
          simp only [if_true, List.mem_singleton] at h1
          exact ⟨_, _, h1⟩
    · cases hp : Promise.all (mapFromEntry b) with
      | error r1 =>
        simp only [readEntries, if_neg hb, hp, Except.map] at h
        obtain ⟨r2, h2⟩ := Promise.all_snoc_error (acc.map (Except.ok : Nested → _)) r1
        obtain ⟨r3, h3⟩ := readEntries_error_of_entries entry err rest _ false r2 h2
        rw [h3] at h
        cases h
      | ok ns =>
        simp only [readEntries, if_neg hb, hp, Except.map] at h
        have hacc1 : List.map Except.ok acc ++ [Except.ok (Nested.arr ns)] =
            (List.map (Except.ok : Nested → Except String Nested) (acc ++ [Nested.arr ns])) := by
          simp
        rw [hacc1] at h
        refine readEntries_leaves entry err rest (acc ++ [Nested.arr ns]) false n ?_ h
        intro f hf
        rw [flatten_append] at hf
        rcases List.mem_append.mp hf with h1 | h1
        · exact hacc f h1
        · simp only [flatten, flattenItem, List.append_nil] at h1
          exact mapFromEntry_leaves b ns hp f h1
/-- Every file of a resolved batch is a decorated platform file. -/
theorem mapFromEntry_leaves : ∀ (b : List Entry) (ns : List Nested),
    Promise.all (mapFromEntry b) = .ok ns → ∀ f ∈ flatten ns, ∃ raw p, f = decorated raw p
  | [], ns, h => by
    simp only [mapFromEntry, Promise.all] at h
    injection h with h
    subst h
    intro f hf
    simp [flatten] at hf
  | e :: es, ns, h => by
    simp only [mapFromEntry] at h
    obtain ⟨v, vs, hv, hvs, hns⟩ := Promise.all_cons_inv _ _ ns h
    subst hns
    intro f hf
    simp only [flatten] at hf
    rcases List.mem_append.mp hf with h1 | h1
    · exact fromEntry_leaves e v hv f h1
    · exact mapFromEntry_leaves es vs hvs f h1
end

theorem toFilePromises_leaves (item : DataTransferItem) (n : Nested)
    (h : toFilePromises item = .ok n) : ∀ f ∈ flattenItem n, ∃ raw p, f = decorated raw p := by
  have hfile : (fromDataTransferItem item).map Nested.leaf = .ok n →
      ∀ f ∈ flattenItem n, ∃ raw p, f = decorated raw p := by
    intro h1
    cases hg : item.getAsFile with
    | none => simp [fromDataTransferItem, hg, Except.map] at h1
    | some raw =>
      simp only [fromDataTransferItem_some item raw hg, Except.map] at h1
      injection h1 with h1
      subst h1
      intro f hf
      simp only [flattenItem, List.mem_singleton] at hf
      exact ⟨raw, none, hf⟩
  unfold toFilePromises at h
  cases hw : item.webkitGetAsEntry with
  | none => rw [hw] at h; exact hfile h
  | some eo =>
    rw [hw] at h
    cases eo with
    | none => exact hfile h
    | some e =>
      cases e with
      | file name fullPath file =>
        simp only [Entry.isDirectory, Bool.false_eq_true, if_false] at h
        exact hfile h
      | dir name fullPath batches err =>
        simp only [Entry.isDirectory, if_true, fromDirEntry_dir] at h
        exact fromEntry_leaves _ n h

theorem Promise.all_map_leaves (items : List DataTransferItem) (ns : List Nested)
    (h : Promise.all (items.map toFilePromises) = .ok ns) :
    ∀ f ∈ flatten ns, ∃ raw p, f = decorated raw p := by
  induction items generalizing ns with
  | nil =>
    simp only [List.map_nil, Promise.all] at h
    injection h with h
    subst h
    intro f hf
    simp [flatten] at hf
  | cons item items ih =>
    rw [List.map_cons] at h
    obtain ⟨v, vs, hv, hvs, hns⟩ := Promise.all_cons_inv _ _ ns h
    subst hns
    intro f hf
    simp only [flatten] at hf
    rcases List.mem_append.mp hf with h1 | h1
    · exact toFilePromises_leaves item v hv f h1
    · exact ih vs hvs f h1

theorem toFileWithPath_path_isSome (file g : File) (p : Option String)
    (h : toFileWithPath file p = .ok g) : ∃ s, g.path = some s := by
  unfold toFileWithPath at h
  cases hw : withMimeType file with
  | error e => simp [hw] at h
  | ok f1 =>
    simp only [hw] at h
    split at h
    · rename_i slot hslot
      injection h with h
      subst h
      unfold defineProperty at hslot
      split at hslot
      · injection hslot with hslot
        exact ⟨_, hslot.symm⟩
      · split_ifs at hslot
        injection hslot with hslot
        exact ⟨_, hslot.symm⟩
    · cases h

theorem decorated_path_isSome (raw : RawFile) (p : Option String) :
    ∃ s, (decorated raw p).path = some s :=
  toFileWithPath_path_isSome _ _ p (toFileWithPath_ofRaw_eq raw p)

theorem mapToFileWithPath_path (files fs : List File) (h : mapToFileWithPath files = .ok fs) :
    ∀ f ∈ fs, ∃ s, f.path = some s := by
  induction files generalizing fs with
  | nil =>
    simp only [mapToFileWithPath] at h
    injection h with h
    subst h
    intro f hf
    cases hf
  | cons file rest ih =>
    simp only [mapToFileWithPath] at h
    cases h1 : toFileWithPath file none with
    | error e => simp [h1] at h
    | ok g =>
      cases h2 : mapToFileWithPath rest with
      | error e => simp [h1, h2] at h
      | ok gs =>
        simp only [h1, h2] at h
        injection h with h
        subst h
        intro f hf
        rcases List.mem_cons.mp hf with h3 | h3
        · subst h3
          exact toFileWithPath_path_isSome file f none h1
        · exact ih gs h2 f h3

/-- Every file `fromEvent` resolves with has a `path` string. -/
theorem fromEvent_files_path (evt : Event) (fs : List File)
    (h : fromEvent evt = .ok (.files fs)) : ∀ f ∈ fs, ∃ s, f.path = some s := by
  cases hdt : evt.dataTransfer with
  | none =>
    simp only [fromEvent, hdt, getInputFiles] at h
    cases hm : mapToFileWithPath (match evt.target with
        | some target => match target.files with
          | some fs => fs
          | none => []
        | none => []) with
    | error e => simp [hm, Except.map] at h
    | ok gs =>
      simp only [hm, Except.map] at h
      injection h with h
      injection h with h
      subst h
      exact mapToFileWithPath_path _ _ hm
  | some dt =>
    rw [fromEvent_drag evt dt hdt] at h
    unfold getDataTransferFiles at h
    by_cases htype : evt.type = "drop"
    · simp only [if_pos htype] at h
      cases hp : Promise.all
          ((dt.items.filter (fun item => item.kind = "file")).map toFilePromises) with
      | error e => simp [hp] at h
      | ok ns =>
        simp only [hp] at h
        injection h with h
        injection h with h
        subst h
        intro f hf
        obtain ⟨raw, p, hfr⟩ := Promise.all_map_leaves _ ns hp f (List.mem_filter.mp hf).1
        obtain ⟨s, hs⟩ := decorated_path_isSome raw p
        exact ⟨s, by rw [hfr]; exact hs⟩
    · simp only [if_neg htype] at h
      injection h with h
      cases h

/-! ## C4: the path is set, possibly to the empty string -/

/-- C4 (amended): for every raw file and optional explicit path, `toFileWithPath`
returns a file whose `path` is a string, and that string is empty exactly when the
explicit path is the empty string, or no explicit path is given, the raw file has no
non-empty `webkitRelativePath` and its name is empty; and every file `fromEvent`
returns has a `path` string. -/
theorem toFileWithPath_path_defined :
    (∀ (f : RawFile) (p : Option String),
      ∃ g s, toFileWithPath (File.ofRaw f) p = .ok g ∧ g.path = some s ∧
        (s = "" ↔ (p = some "" ∨
          (p = none ∧ (f.webkitRelativePath = none ∨ f.webkitRelativePath = some "") ∧
            f.name = "")))) ∧
    (∀ (evt : Event) (fs : List File), fromEvent evt = .ok (.files fs) →
      ∀ f ∈ fs, ∃ s, f.path = some s) :=
  ⟨toFileWithPath_ofRaw_path, fromEvent_files_path⟩

theorem toFileWithPath_path_defined_witness :
    (∃ g s, toFileWithPath (File.ofRaw ⟨"test.json", "", some "", []⟩) none = .ok g ∧
      g.path = some s ∧ s ≠ "") ∧
    (∀ f ∈
        [ (⟨⟨"a.png", "", some "", [1, 2]⟩, some "image/png", some "/photos/a.png"⟩ : File),
          ⟨⟨"b.txt", "text/plain", some "", []⟩, none, some "/photos/b.txt"⟩,
          ⟨⟨"c.pdf", "", some "", [3]⟩, some "application/pdf", some "c.pdf"⟩ ],
      ∃ s, f.path = some s) := by
  constructor
  · obtain ⟨g, s, hg, hs, hiff⟩ :=
      toFileWithPath_path_defined.1 ⟨"test.json", "", some "", []⟩ none
    refine ⟨g, s, hg, hs, fun h0 => ?_⟩
    rcases hiff.mp h0 with h1 | ⟨_, _, h3⟩
    · cases h1
    · exact absurd h3 (by decide)
  · exact toFileWithPath_path_defined.2 sampleDrop _ rfl

/-! ## Lemmas on input elements -/

theorem decorated_path_none (raw : RawFile) :
    (decorated raw none).path = some (match raw.webkitRelativePath with
      | some w => if w ≠ "" then w else raw.name
      | none => raw.name) := by
  obtain ⟨t, _, ht⟩ := toFileWithPath_ofRaw raw none
  simp only [decorated, ht, File.path]
  cases hw : raw.webkitRelativePath with
  | none => rfl
  | some w =>
    by_cases hne : w = ""
    · subst hne
      simp
    · simp [if_pos ((length_pos_iff_ne_empty w).mpr hne), hne]

theorem mapToFileWithPath_ofRaw (raws : List RawFile) :
    mapToFileWithPath (raws.map File.ofRaw) = .ok (raws.map (fun r => decorated r none)) := by
  induction raws with
  | nil => rfl
  | cons r rs ih =>
    simp only [List.map_cons, mapToFileWithPath, toFileWithPath_ofRaw_eq, ih]

/-! ## C13, C19, C17: what decoration keeps, and how items are routed -/

theorem withMimeType_raw (file g : File) (h : withMimeType file = .ok g) :
    g.raw = file.raw ∧ g.ownPath = file.ownPath := by
  simp only [withMimeType] at h
  repeat' split at h
  all_goals first
    | (injection h with h; subst h; exact ⟨rfl, rfl⟩)
    | cases h

theorem toFileWithPath_raw (file g : File) (p : Option String)
    (h : toFileWithPath file p = .ok g) : g.raw = file.raw := by
  unfold toFileWithPath at h
  cases hw : withMimeType file with
  | error e => simp [hw] at h
  | ok f1 =>
    simp only [hw] at h
    split at h
    · injection h with h
      subst h
      exact (withMimeType_raw file f1 hw).1
    · cases h

/-- C13: for every raw file and optional explicit path, `toFileWithPath` returns the
file object it was given with the platform file untouched: same name, same bytes,
same length; only the own properties `path` and `type` can differ. More generally,
whenever `toFileWithPath` returns on a file object, the platform file is untouched. -/
theorem toFileWithPath_keeps_file :
    (∀ (f : RawFile) (p : Option String),
      ∃ g, toFileWithPath (File.ofRaw f) p = .ok g ∧ g.raw = f ∧ g.name = f.name ∧
        g.raw.content = f.content ∧ g.size = f.content.length) ∧
    (∀ (file g : File) (p : Option String), toFileWithPath file p = .ok g →
      g.raw = file.raw ∧ g.name = file.name ∧ g.size = file.size) := by
  constructor
  · intro f p
    refine ⟨decorated f p, toFileWithPath_ofRaw_eq f p, decorated_raw f p, decorated_name f p, ?_, ?_⟩
    · rw [decorated_raw]
    · simp only [File.size, decorated_raw]
  · intro file g p h
    have hraw := toFileWithPath_raw file g p h
    exact ⟨hraw, by simp only [File.name, hraw], by simp only [File.size, hraw]⟩

theorem toFileWithPath_keeps_file_witness :
    (∃ g, toFileWithPath (File.ofRaw ⟨"test.json", "", some "", [123, 125]⟩) none = .ok g ∧
      g.raw = ⟨"test.json", "", some "", [123, 125]⟩ ∧ g.name = "test.json" ∧
      g.raw.content = [123, 125] ∧ g.size = 2) ∧
    ((⟨⟨"a.png", "", some "", [1]⟩, some "image/png", some "/x/a.png"⟩ : File).raw =
        (File.ofRaw ⟨"a.png", "", some "", [1]⟩).raw ∧
      (⟨⟨"a.png", "", some "", [1]⟩, some "image/png", some "/x/a.png"⟩ : File).name =
        (File.ofRaw ⟨"a.png", "", some "", [1]⟩).name ∧
      (⟨⟨"a.png", "", some "", [1]⟩, some "image/png", some "/x/a.png"⟩ : File).size =
        (File.ofRaw ⟨"a.png", "", some "", [1]⟩).size) :=
  ⟨toFileWithPath_keeps_file.1 ⟨"test.json", "", some "", [123, 125]⟩ none,
    toFileWithPath_keeps_file.2 (File.ofRaw ⟨"a.png", "", some "", [1]⟩) _ (some "/x/a.png") rfl⟩

/-- C19: for every raw file without a declared type whose name is `pre.ext` with no
`.` in `ext` (so `ext` is the text after the last `.`; `pre` may be empty or hold
further dots), the type of the file returned by `toFileWithPath` is the table's value
for `ext` lowercased when there is one and stays empty otherwise, whatever `pre` is:
`.png` and `a.tar.zip` get the type of their last segment, `a.` and `a.png.bak` get
none. -/
theorem toFileWithPath_type_last_segment :
    (∀ (f : RawFile) (p : Option String) (pre ext : String),
      f.type = "" → f.name = pre ++ "." ++ ext → '.' ∉ ext.data →
      ∃ g, toFileWithPath (File.ofRaw f) p = .ok g ∧
        g.type = (mapGet COMMON_MIME_TYPES (toLowerCase ext)).getD "") ∧
    (∃ g, toFileWithPath (File.ofRaw ⟨".png", "", some "", []⟩) none = .ok g ∧
      g.type = "image/png") ∧
    (∃ g, toFileWithPath (File.ofRaw ⟨"a.tar.zip", "", some "", []⟩) none = .ok g ∧
      g.type = "application/zip") ∧
    (∃ g, toFileWithPath (File.ofRaw ⟨"a.", "", some "", []⟩) none = .ok g ∧ g.type = "") ∧
    (∃ g, toFileWithPath (File.ofRaw ⟨"a.png.bak", "", some "", []⟩) none = .ok g ∧
      g.type = "") := by
  have key : ∀ (f : RawFile) (p : Option String) (pre ext : String),
      f.type = "" → f.name = pre ++ "." ++ ext → '.' ∉ ext.data →
      ∃ g, toFileWithPath (File.ofRaw f) p = .ok g ∧
        g.type = (mapGet COMMON_MIME_TYPES (toLowerCase ext)).getD "" := by
    intro f p pre ext hty hname hdot
    obtain ⟨t, hw, ht⟩ := toFileWithPath_ofRaw f p
    cases hk : mapGet COMMON_MIME_TYPES (toLowerCase ext) with
    | some v =>
      rw [withMimeType_ofRaw_known f pre ext v hty hname hk] at hw
      have htv : t = some v := by
        injection hw with hw
        injection hw with _ h2 _
        exact h2.symm
      subst htv
      exact ⟨_, ht, rfl⟩
    | none =>
      have hu : withMimeType (File.ofRaw f) = .ok (File.ofRaw f) := by
        apply withMimeType_ofRaw_unchanged
        refine Or.inr (Or.inr ?_)
        intro last hl
        rw [hname, pop_split pre ext hdot] at hl
        cases hl
        exact hk
      rw [hu] at hw
      have htn : t = none := by
        injection hw with hw
        injection hw with _ h2 _
        exact h2.symm
      subst htn
      exact ⟨_, ht, by simp only [File.type, Option.getD_none, hty]⟩
  exact ⟨key, key ⟨".png", "", some "", []⟩ none "" "png" rfl (by decide) (by decide),
    key ⟨"a.tar.zip", "", some "", []⟩ none "a.tar" "zip" rfl (by decide) (by decide),
    key ⟨"a.", "", some "", []⟩ none "a" "" rfl (by decide) (by decide),
    key ⟨"a.png.bak", "", some "", []⟩ none "a.png" "bak" rfl (by decide) (by decide)⟩

theorem toFileWithPath_type_last_segment_witness :
    ∃ g, toFileWithPath (File.ofRaw ⟨"archive.pdf.JPeG", "", some "", []⟩) (some "/d") = .ok g ∧
      g.type = "image/jpeg" :=
  toFileWithPath_type_last_segment.1 ⟨"archive.pdf.JPeG", "", some "", []⟩ (some "/d")
    "archive.pdf" "JPeG" rfl (by decide) (by decide)

/-- C17: `toFilePromises`, which the drop branch applies to every item of kind
`file`, walks the item as a directory when it offers `webkitGetAsEntry` and the call
returns a directory entry; in every other case (no `webkitGetAsEntry`, a `null`
entry, a file entry) the item is resolved through `getAsFile` and decorated without an
explicit path: the result is the platform file of `getAsFile` with its
`webkitRelativePath`, when non-empty, or else its name as `path` (the entry and its
full path play no part), and a rejection when `getAsFile` yields no file. -/
theorem toFilePromises_routing (item : DataTransferItem) :
    (∀ name fullPath batches err,
      item.webkitGetAsEntry = some (some (.dir name fullPath batches err)) →
      toFilePromises item = fromDirEntry (.dir name fullPath batches err)) ∧
    ((item.webkitGetAsEntry = none ∨ item.webkitGetAsEntry = some none ∨
        ∃ name fullPath file, item.webkitGetAsEntry = some (some (.file name fullPath file))) →
      (∀ raw, item.getAsFile = some raw →
        ∃ g, toFilePromises item = .ok (.leaf g) ∧ g.raw = raw ∧
          g.path = some (match raw.webkitRelativePath with
            | some w => if w ≠ "" then w else raw.name
            | none => raw.name)) ∧
      (item.getAsFile = none → ∃ r, toFilePromises item = .error r)) := by
  constructor
  · intro name fullPath batches err h
    exact toFilePromises_dir item name fullPath batches err h
  · intro hentry
    have hnodir : ∀ e, item.webkitGetAsEntry = some (some e) → e.isDirectory = false := by
      intro e he
      rcases hentry with h | h | ⟨name, fullPath, file, h⟩
      · rw [h] at he
        cases he
      · rw [h] at he
        cases he
      · rw [h] at he
        injection he with he
        injection he with he
        subst he
        rfl
    constructor
    · intro raw hraw
      exact ⟨decorated raw none, toFilePromises_file item raw hraw hnodir,
        decorated_raw raw none, decorated_path_none raw⟩
    · intro hnone
      have hfails : item.Fails := by
        unfold DataTransferItem.Fails DataTransferItem.dirEntry
        rcases hentry with h | h | ⟨name, fullPath, file, h⟩
        · simp only [h]
          exact hnone
        · simp only [h]
          exact hnone
        · simp only [h, Entry.isDirectory, Bool.false_eq_true, if_false]
          exact hnone
      exact (toFilePromises_error_iff item).mpr hfails

theorem toFilePromises_routing_witness :
    (toFilePromises
        { kind := "file", getAsFile := some ⟨"d", "", some "", []⟩,
          webkitGetAsEntry := some (some (.dir "d" "/d" [] none)) } =
      fromDirEntry (.dir "d" "/d" [] none)) ∧
    (∃ g, toFilePromises
        { kind := "file", getAsFile := some ⟨"c.pdf", "", some "", [3]⟩,
          webkitGetAsEntry := some (some (.file "c.pdf" "/dir/c.pdf"
            (.ok ⟨"c.pdf", "", some "", [3]⟩))) } = .ok (.leaf g) ∧
      g.raw = ⟨"c.pdf", "", some "", [3]⟩ ∧ g.path = some "c.pdf") ∧
    (∃ r, toFilePromises
        { kind := "file", getAsFile := none, webkitGetAsEntry := some none } = .error r) :=
  ⟨(toFilePromises_routing _).1 "d" "/d" [] none rfl,
    ((toFilePromises_routing _).2 (Or.inr (Or.inr ⟨_, _, _, rfl⟩))).1 _ rfl,
    ((toFilePromises_routing _).2 (Or.inr (Or.inl rfl))).2 rfl⟩

/-! ## C15: decorating twice -/

theorem withMimeType_ownPath (file g : File) (x : Option String)
    (h : withMimeType file = .ok g) :
    withMimeType { file with ownPath := x } = .ok { g with ownPath := x } := by
  by_cases hc : (file.name ≠ "" ∧ lastIndexOf file.name '.' ≠ -1) ∧ file.type = ""
  · obtain ⟨last, hl⟩ := pop_split_some file.name
    have hc2 : ((File.name { file with ownPath := x }) ≠ "" ∧
        lastIndexOf (File.name { file with ownPath := x }) '.' ≠ -1) ∧
        File.type { file with ownPath := x } = "" := hc
    have hl2 : pop (split (File.name { file with ownPath := x }) '.') = some last := hl
    simp only [withMimeType, if_pos hc, hl] at h
    simp only [withMimeType, if_pos hc2, hl2]
    cases hm : mapGet COMMON_MIME_TYPES (toLowerCase last) with
    | none =>
      simp only [hm] at h
      injection h with h
      subst h
      rfl
    | some v =>
      have hv : v ≠ "" := (table_entries _ (mem_of_mapGet _ _ _ hm)).2
      simp only [hm, if_pos hv] at h ⊢
      cases hd : defineProperty "type" file.ownType v with
      | error e => simp [hd] at h
      | ok slot =>
        simp only [hd] at h ⊢
        injection h with h
        subst h
        rfl
  · have hc2 : ¬ (((File.name { file with ownPath := x }) ≠ "" ∧
        lastIndexOf (File.name { file with ownPath := x }) '.' ≠ -1) ∧
        File.type { file with ownPath := x } = "") := hc
    simp only [withMimeType, if_neg hc] at h
    injection h with h
    subst h
    simp only [withMimeType, if_neg hc2]

theorem withMimeType_idem (file g : File) (h : withMimeType file = .ok g) :
    withMimeType g = .ok g := by
  by_cases hc : (file.name ≠ "" ∧ lastIndexOf file.name '.' ≠ -1) ∧ file.type = ""
  · obtain ⟨last, hl⟩ := pop_split_some file.name
    simp only [withMimeType, if_pos hc, hl] at h
    cases hm : mapGet COMMON_MIME_TYPES (toLowerCase last) with
    | none =>
      simp only [hm] at h
      injection h with h
      subst h
      simp only [withMimeType, if_pos hc, hl, hm]
    | some v =>
      have hv : v ≠ "" := (table_entries _ (mem_of_mapGet _ _ _ hm)).2
      simp only [hm, if_pos hv] at h
      cases ho : file.ownType with
      | some old =>
        have hold : old = "" := by
          have := hc.2
          simpa only [File.type, ho, Option.getD_some] using this
        have hne : ¬ old = v := by
          rw [hold]
          exact fun h0 => hv h0.symm
        simp [ho, defineProperty, hne] at h
      | none =>
        simp only [ho, defineProperty] at h
        injection h with h
        subst h
        have hnc : ¬ ((file.raw.name ≠ "" ∧ lastIndexOf file.raw.name '.' ≠ -1) ∧ v = "") :=
          fun h0 => hv h0.2
        simp only [withMimeType, File.name, File.type, Option.getD_some, if_neg hnc]
  · simp only [withMimeType, if_neg hc] at h
    injection h with h
    subst h
    simp only [withMimeType, if_neg hc]

theorem path_value_eq (f : RawFile) (p : Option String) :
    (match p with
      | some s => s
      | none =>
        match f.webkitRelativePath with
        | some w => if w.length > 0 then w else f.name
        | none => f.name) =
    (match p with
      | some s => s
      | none =>
        match f.webkitRelativePath with
        | some w => if w ≠ "" then w else f.name
        | none => f.name) := by
  cases p with
  | some s => rfl
  | none =>
    cases hwr : f.webkitRelativePath with
    | none => rfl
    | some w =>
      by_cases hne : w = ""
      · subst hne
        simp
      · simp [if_pos ((length_pos_iff_ne_empty w).mpr hne), hne]

/-- A second call on a decorated file compares the path it is to set with the path
the file has. -/
theorem toFileWithPath_decorated (f : RawFile) (t : Option String) (v1 : String)
    (hw : withMimeType (File.ofRaw f) = .ok { raw := f, ownType := t, ownPath := none })
    (p2 : Option String) :
    toFileWithPath { raw := f, ownType := t, ownPath := some v1 } p2 =
      if v1 = (match p2 with
          | some s => s
          | none =>
            match f.webkitRelativePath with
            | some w => if w.length > 0 then w else f.name
            | none => f.name)
      then .ok { raw := f, ownType := t, ownPath := some v1 }
      else .error "TypeError: Cannot redefine property: path" := by
  have hw2 := withMimeType_ownPath _ _ (some v1) (withMimeType_idem _ _ hw)
  simp only [toFileWithPath, hw2, File.name, defineProperty]
  split_ifs <;> rfl

/-- C15 (as stated) fails: a file decorated without a path argument is returned, not
refused, by a second call without a path argument; and so is a file decorated with
an explicit path when the second call gives the same path. -/
theorem second_decoration_returns :
    toFileWithPath (File.ofRaw ⟨"test.png", "", some "", [1]⟩) none =
      .ok ⟨⟨"test.png", "", some "", [1]⟩, some "image/png", some "test.png"⟩ ∧
    toFileWithPath ⟨⟨"test.png", "", some "", [1]⟩, some "image/png", some "test.png"⟩ none =
      .ok ⟨⟨"test.png", "", some "", [1]⟩, some "image/png", some "test.png"⟩ ∧
    toFileWithPath (File.ofRaw ⟨"a", "", some "", []⟩) (some "/d/a") =
      .ok ⟨⟨"a", "", some "", []⟩, none, some "/d/a"⟩ ∧
    toFileWithPath ⟨⟨"a", "", some "", []⟩, none, some "/d/a"⟩ (some "/d/a") =
      .ok ⟨⟨"a", "", some "", []⟩, none, some "/d/a"⟩ := by
  refine ⟨rfl, rfl, rfl, rfl⟩

/-- C15 (amended): for every file object `g` that `toFileWithPath` has decorated
(from a raw file `f`, with any first path argument), a second call of
`toFileWithPath` on `g` throws exactly when the path it is to set (the explicit path
when given, else the non-empty `webkitRelativePath`, else the name) differs from the
path `g` already has; when the two are equal the call returns `g` unchanged. -/
theorem toFileWithPath_twice (f : RawFile) (p1 p2 : Option String) :
    ∃ g s1, toFileWithPath (File.ofRaw f) p1 = .ok g ∧ g.path = some s1 ∧
      ∀ s2, s2 = (match p2 with
          | some s => s
          | none =>
            match f.webkitRelativePath with
            | some w => if w ≠ "" then w else f.name
            | none => f.name) →
        (s2 = s1 → toFileWithPath g p2 = .ok g) ∧
        (s2 ≠ s1 → toFileWithPath g p2 = .error "TypeError: Cannot redefine property: path") := by
  obtain ⟨t, v1, hw, ht⟩ : ∃ t v1,
      withMimeType (File.ofRaw f) = .ok { raw := f, ownType := t, ownPath := none } ∧
      toFileWithPath (File.ofRaw f) p1 = .ok { raw := f, ownType := t, ownPath := some v1 } := by
    obtain ⟨t, hw, ht⟩ := toFileWithPath_ofRaw f p1
    exact ⟨t, _, hw, ht⟩
  refine ⟨_, v1, ht, rfl, ?_⟩
  intro s2 hs2
  rw [← path_value_eq f p2] at hs2
  have hrun := toFileWithPath_decorated f t v1 hw p2
  rw [← hs2] at hrun
  constructor
  · intro heq
    rw [hrun, if_pos heq.symm]
  · intro hne
    rw [hrun, if_neg (fun h0 => hne h0.symm)]

theorem toFileWithPath_twice_witness :
    (∃ g, toFileWithPath (File.ofRaw ⟨"test.png", "", some "", [1]⟩) none = .ok g ∧
      toFileWithPath g (some "/other") = .error "TypeError: Cannot redefine property: path") ∧
    (∃ g, toFileWithPath (File.ofRaw ⟨"test.png", "", some "", [1]⟩) none = .ok g ∧
      toFileWithPath g none = .ok g) := by
  constructor
  · obtain ⟨g, s1, hg, hs, h⟩ :=
      toFileWithPath_twice ⟨"test.png", "", some "", [1]⟩ none (some "/other")
    refine ⟨g, hg, (h "/other" rfl).2 ?_⟩
    have hg2 : toFileWithPath (File.ofRaw ⟨"test.png", "", some "", [1]⟩) none =
        .ok ⟨⟨"test.png", "", some "", [1]⟩, some "image/png", some "test.png"⟩ := rfl
    rw [hg2] at hg
    injection hg with hg
    subst hg
    injection hs with hs
    subst hs
    decide
  · obtain ⟨g, s1, hg, hs, h⟩ :=
      toFileWithPath_twice ⟨"test.png", "", some "", [1]⟩ none none
    refine ⟨g, hg, (h "test.png" rfl).1 ?_⟩
    have hg2 : toFileWithPath (File.ofRaw ⟨"test.png", "", some "", [1]⟩) none =
        .ok ⟨⟨"test.png", "", some "", [1]⟩, some "image/png", some "test.png"⟩ := rfl
    rw [hg2] at hg
    injection hg with hg
    subst hg
    injection hs with hs

/-! ## C12: `flatten` -/

mutual
theorem flattenItem_length : ∀ x : Nested, (flattenItem x).length = x.leafCount
  | .leaf _ => by simp only [flattenItem, Nested.leafCount, List.length_singleton]
  | .arr xs => by
    simp only [flattenItem, Nested.leafCount]
    exact flatten_length xs
theorem flatten_length : ∀ xs : List Nested, (flatten xs).length = leafCountList xs
  | [] => by simp only [flatten, leafCountList, List.length_nil]
  | x :: xs => by
    simp only [flatten, leafCountList, List.length_append, flattenItem_length x,
      flatten_length xs]
end

mutual
theorem flattenItem_count (f : File) : ∀ x : Nested, (flattenItem x).count f = x.occurrences f
  | .leaf g => by
    simp only [flattenItem, Nested.occurrences]
    by_cases h : g = f
    · subst h
      simp
    · rw [if_neg h, List.count_eq_zero]
      intro hm
      exact h (List.mem_singleton.mp hm).symm
  | .arr xs => by
    simp only [flattenItem, Nested.occurrences]
    exact flatten_count f xs
theorem flatten_count (f : File) : ∀ xs : List Nested, (flatten xs).count f = occurrencesList f xs
  | [] => by simp only [flatten, occurrencesList, List.count_nil]
  | x :: xs => by
    simp only [flatten, occurrencesList, List.count_append, flattenItem_count f x,
      flatten_count f xs]
end

/-- C12: for every nested collection of files, `flatten` returns a list of files (no
element of which is an array, the elements being of type `File`) that holds every
leaf of the input exactly as often as the input does, and nothing else: its length is
the number of leaves, every file occurs in it as many times as it is a leaf of the
input; and `flatten` of an already flat list is that list. -/
theorem flatten_leaves :
    (∀ items : List Nested,
      (flatten items).length = leafCountList items ∧
      ∀ f : File, (flatten items).count f = occurrencesList f items) ∧
    (∀ fs : List File, flatten (fs.map Nested.leaf) = fs) :=
  ⟨fun items => ⟨flatten_length items, fun f => flatten_count f items⟩, flatten_map_leaf⟩

/-! ## C14, C18: the files of a resolved tree, in depth-first order -/

theorem decorated_none_eq (raw : RawFile) :
    decorated raw none = decorated raw (some (match raw.webkitRelativePath with
      | some w => if w ≠ "" then w else raw.name
      | none => raw.name)) := by
  obtain ⟨t1, hw1, ht1⟩ := toFileWithPath_ofRaw raw none
  obtain ⟨t2, hw2, ht2⟩ := toFileWithPath_ofRaw raw (some (match raw.webkitRelativePath with
      | some w => if w ≠ "" then w else raw.name
      | none => raw.name))
  rw [hw1] at hw2
  injection hw2 with hw2
  injection hw2 with _ ht _
  subst ht
  have h1 := path_value_eq raw none
  simp only [decorated, ht1, ht2]
  simp only at h1
  rw [h1]

theorem matches_decorated (x : Expected) : x.Matches (decorated x.raw (some x.path)) :=
  ⟨decorated_raw _ _, decorated_path_some _ _⟩

theorem forall₂_matches_map (xs : List Expected) :
    List.Forall₂ Expected.Matches xs (xs.map (fun x => decorated x.raw (some x.path))) := by
  rw [List.forall₂_map_right_iff]
  exact List.forall₂_same.mpr (fun x _ => matches_decorated x)

mutual
/-- The files of a resolved entry are the expected ones, in order. -/
theorem fromEntry_expected : ∀ (e : Entry) (n : Nested), fromEntry e = .ok n →
    flattenItem n = e.expected.map (fun x => decorated x.raw (some x.path))
  | .file name fullPath (.error reason), n, h => by
    simp [fromEntry, fromFileEntry, Except.map] at h
  | .file name fullPath (.ok raw), n, h => by
    simp only [fromEntry, fromFileEntry_ok, Except.map] at h
    injection h with h
    subst h
    simp only [flattenItem, Entry.expected, List.map_cons, List.map_nil]
  | .dir name fullPath batches err, n, h => by
    simp only [fromEntry] at h
    have hrun := readEntries_expected (.dir name fullPath batches err) err batches [] true n h
    simp only [flatten, List.nil_append, Bool.true_and, Entry.name, Entry.fullPath] at hrun
    rw [hrun]
    simp only [Entry.expected]
    cases hd : deliversNothing batches with
    | false => simp
    | true =>
      have hnil : expectedBatches batches = [] := by
        cases batches with
        | nil => rfl
        | cons b rest =>
          simp only [deliversNothing] at hd
          simp only [expectedBatches, hd, if_true]
      simp [hnil, Expected.placeholder]
/-- The files of a resolved `readEntries` loop: those pushed so far, then the
expected files of the batches still to deliver, then the placeholder when nothing was
and nothing is delivered. -/
theorem readEntries_expected (entry : Entry) (err : Option String) :
    ∀ (rest : List (List Entry)) (acc : List Nested) (empty : Bool) (n : Nested),
    readEntries entry err rest (acc.map .ok) empty = .ok n →
    flattenItem n = flatten acc ++
      (expectedBatches rest).map (fun x => decorated x.raw (some x.path)) ++
      if (empty && deliversNothing rest) = true then
        [decorated ⟨entry.name, "", some "", []⟩ (some (entry.fullPath ++ "/"))] else []
  | [], acc, empty, n, h => by
    cases err with
    | some reason => simp [readEntries] at h
    | none =>
      simp only [readEntries] at h
      rw [flattenItem_doneReading entry acc empty n h]
      simp [expectedBatches, deliversNothing]
  | b :: rest, acc, empty, n, h => by
    by_cases hb : b.length = 0
    · simp only [readEntries, if_pos hb] at h
      rw [flattenItem_doneReading entry acc empty n h]
      have hbe : b.isEmpty = true := by
        rw [List.length_eq_zero.mp hb]
        rfl
      simp [expectedBatches, deliversNothing, hbe]
    · have hbe : b.isEmpty = false := by
        cases b with
        | nil => exact absurd rfl hb
        | cons e es => rfl
      cases hp : Promise.all (mapFromEntry b) with
      | error r1 =>
        simp only [readEntries, if_neg hb, hp, Except.map] at h
        obtain ⟨r2, h2⟩ := Promise.all_snoc_error (acc.map (Except.ok : Nested → _)) r1
        obtain ⟨r3, h3⟩ := readEntries_error_of_entries entry err rest _ false r2 h2
        rw [h3] at h
        cases h
      | ok ns =>
        simp only [readEntries, if_neg hb, hp, Except.map] at h
        have hacc1 : List.map Except.ok acc ++ [Except.ok (Nested.arr ns)] =
            (List.map (Except.ok : Nested → Except String Nested) (acc ++ [Nested.arr ns])) := by
          simp
        rw [hacc1] at h
        have hrec := readEntries_expected entry err rest (acc ++ [Nested.arr ns]) false n h
        have hbatch := mapFromEntry_expected b ns hp
        rw [hrec]
        simp only [flatten_append, flatten, flattenItem, List.append_nil, hbatch,
          expectedBatches, hbe, Bool.false_eq_true, if_false, List.map_append, Bool.false_and,
          deliversNothing, Bool.and_false, List.append_assoc]
/-- The files of a resolved batch are the expected ones, in order. -/
theorem mapFromEntry_expected : ∀ (b : List Entry) (ns : List Nested),
    Promise.all (mapFromEntry b) = .ok ns →
    flatten ns = (expectedBatch b).map (fun x => decorated x.raw (some x.path))
  | [], ns, h => by
    simp only [mapFromEntry, Promise.all] at h
    injection h with h
    subst h
    simp [flatten, expectedBatch]
  | e :: es, ns, h => by
    simp only [mapFromEntry] at h
    obtain ⟨v, vs, hv, hvs, hns⟩ := Promise.all_cons_inv _ _ ns h
    subst hns
    simp only [flatten, expectedBatch, List.map_append, fromEntry_expected e v hv,
      mapFromEntry_expected es vs hvs]
end

theorem not_wellRead_of_fails (e : Entry) (h : e.Fails) : ¬ e.WellRead := by
  induction h with
  | file name fullPath reason =>
    intro hw
    cases hw
  | reader name fullPath batches reason hread =>
    intro hw
    cases hw
  | child name fullPath before batch after err e hread hmem _ ih =>
    intro hw
    cases hw with
    | dir _ _ _ _ hentries =>
      exact ih (hentries batch (List.mem_append_right _ (List.mem_cons_self _ _)) e hmem)

theorem fromEntry_ok_of_wellRead (e : Entry) (h : e.WellRead) : ∃ n, fromEntry e = .ok n := by
  cases hr : fromEntry e with
  | ok n => exact ⟨n, rfl⟩
  | error r => exact absurd h (not_wellRead_of_fails e (fails_of_fromEntry_error e r hr))

/-- C14: for every directory tree that resolves without failure (directories nested
to any depth, every reader delivering non-empty batches followed by the empty batch),
`fromDirEntry` resolves and its result, flattened, is exactly the expected list: one
file per file entry of the tree, being the file the entry delivered with the entry's
full path as `path`, and one placeholder (no bytes, path ending in `/`) per directory
whose reader delivered no item, none for a directory that delivered an item. -/
theorem fromDirEntry_expected (name fullPath : String) (batches : List (List Entry))
    (err : Option String) (h : (Entry.dir name fullPath batches err).WellRead) :
    ∃ n, fromDirEntry (.dir name fullPath batches err) = .ok n ∧
      List.Forall₂ Expected.Matches (Entry.dir name fullPath batches err).expected
        (flattenItem n) := by
  obtain ⟨n, hn⟩ := fromEntry_ok_of_wellRead _ h
  refine ⟨n, by rw [fromDirEntry_dir]; exact hn, ?_⟩
  rw [fromEntry_expected _ n hn]
  exact forall₂_matches_map _

theorem fromDirEntry_expected_witness :
    ∃ n, fromDirEntry (.dir "a" "/a"
        [ [ .file "x.png" "/a/x.png" (.ok ⟨"x.png", "", some "", [1]⟩),
            .dir "b" "/a/b" [] none ],
          [ .dir "c" "/a/c" [ [ .file "y" "/a/c/y" (.ok ⟨"y", "", some "", []⟩) ] ] none ] ]
        none) = .ok n ∧
      List.Forall₂ Expected.Matches
        [ { raw := ⟨"x.png", "", some "", [1]⟩, path := "/a/x.png" },
          { raw := ⟨"b", "", some "", []⟩, path := "/a/b/" },
          { raw := ⟨"y", "", some "", []⟩, path := "/a/c/y" } ]
        (flattenItem n) :=
  fromDirEntry_expected "a" "/a" _ none
    (Entry.WellRead.dir "a" "/a" _ (by simp)
      (by
        intro b hb e he
        simp only [List.mem_cons, List.mem_singleton, List.not_mem_nil, or_false] at hb
        rcases hb with hb | hb <;> subst hb <;>
          simp only [List.mem_cons, List.mem_singleton, List.not_mem_nil, or_false] at he
        · rcases he with he | he <;> subst he
          · exact Entry.WellRead.file _ _ _
          · exact Entry.WellRead.dir _ _ _ (by simp) (by simp)
        · subst he
          refine Entry.WellRead.dir _ _ _ (by simp) ?_
          intro b1 hb1 e1 he1
          simp only [List.mem_singleton] at hb1
          subst hb1
          simp only [List.mem_singleton] at he1
          subst he1
          exact Entry.WellRead.file _ _ _))

theorem toFilePromises_expected (item : DataTransferItem) (n : Nested)
    (h : toFilePromises item = .ok n) :
    flattenItem n = item.expected.map (fun x => decorated x.raw (some x.path)) := by
  have hfile : (fromDataTransferItem item).map Nested.leaf = .ok n →
      flattenItem n = (match item.getAsFile with
        | some raw =>
          [ ({ raw := raw,
               path := match raw.webkitRelativePath with
                 | some w => if w ≠ "" then w else raw.name
                 | none => raw.name } : Expected) ]
        | none => []).map (fun x : Expected => decorated x.raw (some x.path)) := by
    intro h1
    cases hg : item.getAsFile with
    | none => simp [fromDataTransferItem, hg, Except.map] at h1
    | some raw =>
      simp only [fromDataTransferItem_some item raw hg, Except.map] at h1
      injection h1 with h1
      subst h1
      simp only [flattenItem, List.map_cons, List.map_nil]
      rw [decorated_none_eq]
  unfold toFilePromises at h
  unfold DataTransferItem.expected DataTransferItem.dirEntry
  cases hw : item.webkitGetAsEntry with
  | none => rw [hw] at h; exact hfile h
  | some eo =>
    rw [hw] at h
    cases eo with
    | none => exact hfile h
    | some e =>
      cases e with
      | file name fullPath file =>
        simp only [Entry.isDirectory, Bool.false_eq_true, if_false] at h ⊢
        exact hfile h
      | dir name fullPath batches err =>
        simp only [Entry.isDirectory, if_true, fromDirEntry_dir] at h ⊢
        exact fromEntry_expected _ n h

theorem Promise.all_map_expected (items : List DataTransferItem) (ns : List Nested)
    (h : Promise.all (items.map toFilePromises) = .ok ns) :
    flatten ns = (expectedItems items).map (fun x => decorated x.raw (some x.path)) := by
  induction items generalizing ns with
  | nil =>
    simp only [List.map_nil, Promise.all] at h
    injection h with h
    subst h
    simp [flatten, expectedItems]
  | cons item items ih =>
    rw [List.map_cons] at h
    obtain ⟨v, vs, hv, hvs, hns⟩ := Promise.all_cons_inv _ _ ns h
    subst hns
    simp only [flatten, expectedItems, List.map_append, toFilePromises_expected item v hv,
      ih vs hvs]

/-- C18: when `fromEvent` resolves on a `drop` event, the sequence of files it
returns is the expected one, a function of the payload alone: the files of the items
of kind `file` in the payload's order, the files of a directory depth first, batch
after batch in delivery order and entry after entry within a batch, and the files not
named in the ignore-list kept in that relative order; and two `drop` events with the
same payload have the same result. -/
theorem fromEvent_drop_order :
    (∀ (evt : Event) (dt : DataTransfer) (fs : List File),
      evt.dataTransfer = some dt → evt.type = "drop" → fromEvent evt = .ok (.files fs) →
      List.Forall₂ Expected.Matches dt.expected fs) ∧
    (∀ (evt1 evt2 : Event) (dt : DataTransfer),
      evt1.dataTransfer = some dt → evt2.dataTransfer = some dt →
      evt1.type = "drop" → evt2.type = "drop" → fromEvent evt1 = fromEvent evt2) := by
  constructor
  · intro evt dt fs hdt htype h
    rw [fromEvent_drag evt dt hdt, htype] at h
    cases hp : Promise.all
        ((dt.items.filter (fun item => item.kind = "file")).map toFilePromises) with
    | error r =>
      simp [getDataTransferFiles, hp] at h
    | ok ns =>
      rw [getDataTransferFiles_drop_of dt ns hp] at h
      injection h with h
      injection h with h
      subst h
      rw [Promise.all_map_expected _ ns hp, List.filter_map]
      have hfun : ((fun file : File => !FILES_TO_IGNORE.contains file.name) ∘
          fun x : Expected => decorated x.raw (some x.path)) =
          fun x : Expected => !FILES_TO_IGNORE.contains x.raw.name := by
        funext x
        simp only [Function.comp, decorated_name]
      rw [hfun]
      exact forall₂_matches_map _
  · intro evt1 evt2 dt h1 h2 t1 t2
    rw [fromEvent_drag evt1 dt h1, fromEvent_drag evt2 dt h2, t1, t2]

theorem fromEvent_drop_order_witness :
    List.Forall₂ Expected.Matches
      [ { raw := ⟨"a.png", "", some "", [1, 2]⟩, path := "/photos/a.png" },
        { raw := ⟨"b.txt", "text/plain", some "", []⟩, path := "/photos/b.txt" },
        { raw := ⟨"c.pdf", "", some "", [3]⟩, path := "c.pdf" } ]
      [ ⟨⟨"a.png", "", some "", [1, 2]⟩, some "image/png", some "/photos/a.png"⟩,
        ⟨⟨"b.txt", "text/plain", some "", []⟩, none, some "/photos/b.txt"⟩,
        ⟨⟨"c.pdf", "", some "", [3]⟩, some "application/pdf", some "c.pdf"⟩ ] :=
  fromEvent_drop_order.1 sampleDrop _ _ rfl rfl rfl

/-! ## C11: input elements -/

theorem toFileWithPath_path_of_ok (file g : File) (p : Option String) :
    toFileWithPath file p = .ok g →
    g.path = some (match p with
      | some s => s
      | none =>
        match file.raw.webkitRelativePath with
        | some w => if w.length > 0 then w else file.raw.name
        | none => file.raw.name) := by
  intro h
  unfold toFileWithPath at h
  cases hw : withMimeType file with
  | error e => simp [hw] at h
  | ok f1 =>
    simp only [hw, File.name] at h
    split at h
    · rename_i slot hslot
      injection h with h
      subst h
      simp only [File.path]
      unfold defineProperty at hslot
      split at hslot
      · injection hslot with hslot
        exact hslot.symm
      · split_ifs at hslot with heq
        injection hslot with hslot
        rw [← hslot, heq]
    · cases h

theorem toFileWithPath_none_of_ok (file g : File) (h : toFileWithPath file none = .ok g) :
    g.raw = file.raw ∧ g.name = file.name ∧
      g.path = some (match file.raw.webkitRelativePath with
        | some w => if w ≠ "" then w else file.raw.name
        | none => file.raw.name) := by
  have hraw := toFileWithPath_raw file g none h
  have hpath := toFileWithPath_path_of_ok file g none h
  have hval := path_value_eq file.raw none
  simp only at hval hpath
  rw [hval] at hpath
  exact ⟨hraw, by simp only [File.name, hraw], hpath⟩

theorem mapToFileWithPath_forall₂ (files gs : List File)
    (h : mapToFileWithPath files = .ok gs) :
    List.Forall₂ (fun f g => g.raw = f.raw ∧ g.name = f.name ∧
      g.path = some (match f.raw.webkitRelativePath with
        | some w => if w ≠ "" then w else f.raw.name
        | none => f.raw.name)) files gs := by
  induction files generalizing gs with
  | nil =>
    simp only [mapToFileWithPath] at h
    injection h with h
    subst h
    exact List.Forall₂.nil
  | cons file rest ih =>
    simp only [mapToFileWithPath] at h
    cases h1 : toFileWithPath file none with
    | error e => simp [h1] at h
    | ok g =>
      cases h2 : mapToFileWithPath rest with
      | error e => simp [h1, h2] at h
      | ok gs1 =>
        simp only [h1, h2] at h
        injection h with h
        subst h
        exact List.Forall₂.cons (toFileWithPath_none_of_ok file g h1) (ih gs1 h2)

/-- C11 (as stated) fails: on a change event whose files list holds a file object
that was decorated before with another path, `toFileWithPath` throws and `fromEvent`
rejects instead of returning one file per selected file. -/
theorem decorated_selection_rejected :
    fromEvent
      { type := "change", dataTransfer := none,
        target := some
          { files := some
              [ File.ofRaw ⟨"notes.txt", "text/plain", some "", [1]⟩,
                ⟨⟨"a.txt", "", some "", []⟩, none, some "/custom/a.txt"⟩ ] } } =
      .error "TypeError: Cannot redefine property: path" := by
  rfl

/-- C11 (amended): on an event without drag payload, `fromEvent` returns the empty
list when the target is `null` or has no files list; when the files of the list are
file objects not decorated yet it returns one decorated file per file of the list, in
the same order and in the same number, whatever the names of the files; and whenever
it returns (it rejects when `toFileWithPath` throws on a file of the list), the
result is one file per file of the list, in the same order and in the same number,
each being the selected platform file with its `webkitRelativePath`, when non-empty,
or else its name as `path`. -/
theorem fromEvent_input_files (evt : Event) (hdt : evt.dataTransfer = none) :
    (∀ (target : Target) (raws : List RawFile),
      evt.target = some target → target.files = some (raws.map File.ofRaw) →
      ∃ gs, fromEvent evt = .ok (.files gs) ∧ gs.length = raws.length ∧
        List.Forall₂ (fun r g => g.raw = r ∧ g.name = r.name ∧
          g.path = some (match r.webkitRelativePath with
            | some w => if w ≠ "" then w else r.name
            | none => r.name)) raws gs) ∧
    (∀ (target : Target) (files : List File) (r : Result),
      evt.target = some target → target.files = some files → fromEvent evt = .ok r →
      ∃ gs, r = .files gs ∧ gs.length = files.length ∧
        List.Forall₂ (fun f g => g.raw = f.raw ∧ g.name = f.name ∧
          g.path = some (match f.raw.webkitRelativePath with
            | some w => if w ≠ "" then w else f.raw.name
            | none => f.raw.name)) files gs) ∧
    ((evt.target = none ∨ ∃ target, evt.target = some target ∧ target.files = none) →
      fromEvent evt = .ok (.files [])) := by
  refine ⟨?_, ?_, ?_⟩
  · intro target raws ht hf
    refine ⟨raws.map (fun r => decorated r none), ?_, by simp, ?_⟩
    · simp only [fromEvent, hdt, getInputFiles, ht, hf, mapToFileWithPath_ofRaw, Except.map]
    · rw [List.forall₂_map_right_iff]
      exact List.forall₂_same.mpr (fun r _ =>
        ⟨decorated_raw r none, decorated_name r none, decorated_path_none r⟩)
  · intro target files r ht hf h
    simp only [fromEvent, hdt, getInputFiles, ht, hf] at h
    cases hm : mapToFileWithPath files with
    | error e => simp [hm, Except.map] at h
    | ok gs =>
      simp only [hm, Except.map] at h
      injection h with h
      have hrel := mapToFileWithPath_forall₂ files gs hm
      exact ⟨gs, h.symm, hrel.length_eq.symm, hrel⟩
  · intro h
    rcases h with h | ⟨target, ht, hf⟩
    · simp only [fromEvent, hdt, getInputFiles, h, mapToFileWithPath, Except.map]
    · simp only [fromEvent, hdt, getInputFiles, ht, hf, mapToFileWithPath, Except.map]

theorem fromEvent_input_files_witness :
    (∃ gs, fromEvent sampleChange = .ok (.files gs) ∧ gs.length = 3 ∧
      List.Forall₂ (fun r g => g.raw = r ∧ g.name = r.name ∧
        g.path = some (match r.webkitRelativePath with
          | some w => if w ≠ "" then w else r.name
          | none => r.name))
        [ ⟨"notes.txt", "text/plain", some "", [1]⟩,
          ⟨".DS_Store", "", some "", [0]⟩,
          ⟨"b.PNG", "", some "album/b.PNG", [2, 3]⟩ ] gs) ∧
    (∃ gs, Result.files
        [ ⟨⟨"a.txt", "", some "", []⟩, none, some "a.txt"⟩ ] = .files gs ∧
      gs.length = 1 ∧
      List.Forall₂ (fun f g => g.raw = f.raw ∧ g.name = f.name ∧
        g.path = some (match f.raw.webkitRelativePath with
          | some w => if w ≠ "" then w else f.raw.name
          | none => f.raw.name))
        [ (⟨⟨"a.txt", "", some "", []⟩, none, some "a.txt"⟩ : File) ] gs) ∧
    fromEvent { type := "change", dataTransfer := none, target := none } = .ok (.files []) :=
  ⟨(fromEvent_input_files sampleChange rfl).1 _
      [ ⟨"notes.txt", "text/plain", some "", [1]⟩,
        ⟨".DS_Store", "", some "", [0]⟩,
        ⟨"b.PNG", "", some "album/b.PNG", [2, 3]⟩ ] rfl rfl,
    (fromEvent_input_files
      { type := "change", dataTransfer := none,
        target := some
          { files := some [ ⟨⟨"a.txt", "", some "", []⟩, none, some "a.txt"⟩ ] } }
      rfl).2.1 _ _ _ rfl rfl rfl,
    (fromEvent_input_files { type := "change", dataTransfer := none, target := none } rfl).2.2
      (Or.inl rfl)⟩

/-! ## C16: one read request at a time, after the batch is started -/

theorem not_eq_append_request (l pre suf : List ReadEvent)
    (hno : ∀ e ∈ l, e.isRequest = false) : l ≠ pre ++ ReadEvent.request :: suf := by
  intro h
  have hmem : ReadEvent.request ∈ l := by
    rw [h]
    exact List.mem_append_right _ (List.mem_cons_self _ _)
  have := hno _ hmem
  simp [ReadEvent.isRequest] at this

theorem readEntriesTrace_request (err : Option String) :
    ∀ (batches : List (List Entry)) (pre suf : List ReadEvent),
    readEntriesTrace err batches = pre ++ ReadEvent.request :: suf →
    pre.countP ReadEvent.isAnswer = pre.countP ReadEvent.isRequest ∧
    pre.countP ReadEvent.isStarted = pre.countP ReadEvent.isRequest ∧
    (pre = [] ∨ ∃ pre0 b, pre = pre0 ++ [.request, .batch b, .started b] ∧ b ≠ []) := by
  intro batches
  induction batches with
  | nil =>
    intro pre suf h
    simp only [readEntriesTrace] at h
    rcases List.cons_eq_append_iff.mp h with ⟨hpre, _⟩ | ⟨a, _, ha⟩
    · subst hpre
      exact ⟨rfl, rfl, Or.inl rfl⟩
    · exfalso
      refine not_eq_append_request _ a suf ?_ ha
      intro e he
      cases err with
      | none =>
        simp only [List.mem_cons, List.mem_singleton, List.not_mem_nil, or_false] at he
        rcases he with he | he <;> subst he <;> rfl
      | some r =>
        simp only [List.mem_singleton] at he
        subst he
        rfl
  | cons b rest ih =>
    intro pre suf h
    simp only [readEntriesTrace] at h
    rcases List.cons_eq_append_iff.mp h with ⟨hpre, _⟩ | ⟨a, hpa, ha⟩
    · subst hpre
      exact ⟨rfl, rfl, Or.inl rfl⟩
    · by_cases hb : b.length = 0
      · exfalso
        rw [if_pos hb] at ha
        refine not_eq_append_request _ a suf ?_ ha
        intro e he
        simp only [List.mem_cons, List.mem_singleton, List.not_mem_nil, or_false] at he
        rcases he with he | he <;> subst he <;> rfl
      · rw [if_neg hb] at ha
        rcases List.cons_eq_append_iff.mp ha with ⟨_, h1⟩ | ⟨a1, hpa1, ha1⟩
        · cases h1
        · rcases List.cons_eq_append_iff.mp ha1 with ⟨_, h2⟩ | ⟨a2, hpa2, ha2⟩
          · cases h2
          · obtain ⟨hans, hst, hshape⟩ := ih a2 suf ha2
            subst hpa hpa1 hpa2
            have hbne : b ≠ [] := fun h0 => hb (by rw [h0]; rfl)
            refine ⟨?_, ?_, Or.inr ?_⟩
            · simp [List.countP_cons, ReadEvent.isAnswer, ReadEvent.isRequest, hans]
            · simp [List.countP_cons, ReadEvent.isStarted, ReadEvent.isRequest, hst]
            · rcases hshape with h0 | ⟨pre0, b0, h0, hb0⟩
              · subst h0
                exact ⟨[], b, rfl, hbne⟩
              · subst h0
                exact ⟨.request :: .batch b :: .started b :: pre0, b0, rfl, hb0⟩

theorem readEntriesTrace_outstanding (err : Option String) :
    ∀ (batches : List (List Entry)) (pre suf : List ReadEvent),
    readEntriesTrace err batches = pre ++ suf →
    pre.countP ReadEvent.isRequest ≤ pre.countP ReadEvent.isAnswer + 1 := by
  intro batches
  induction batches with
  | nil =>
    intro pre suf h
    have hle : pre.countP ReadEvent.isRequest ≤
        (readEntriesTrace err []).countP ReadEvent.isRequest := by
      rw [h, List.countP_append]
      omega
    have hone : (readEntriesTrace err []).countP ReadEvent.isRequest = 1 := by
      cases err <;> simp [readEntriesTrace, List.countP_cons, ReadEvent.isRequest]
    omega
  | cons b rest ih =>
    intro pre suf h
    by_cases hb : b.length = 0
    · have hle : pre.countP ReadEvent.isRequest ≤
          (readEntriesTrace err (b :: rest)).countP ReadEvent.isRequest := by
        rw [h, List.countP_append]
        omega
      have hone : (readEntriesTrace err (b :: rest)).countP ReadEvent.isRequest = 1 := by
        simp [readEntriesTrace, hb, List.countP_cons, ReadEvent.isRequest]
      omega
    · simp only [readEntriesTrace, if_neg hb] at h
      rcases List.cons_eq_append_iff.mp h with ⟨hpre, _⟩ | ⟨a, hpa, ha⟩
      · subst hpre
        simp
      · rcases List.cons_eq_append_iff.mp ha with ⟨ha0, _⟩ | ⟨a1, hpa1, ha1⟩
        · subst hpa ha0
          simp [List.countP_cons, ReadEvent.isRequest, ReadEvent.isAnswer]
        · rcases List.cons_eq_append_iff.mp ha1 with ⟨ha0, _⟩ | ⟨a2, hpa2, ha2⟩
          · subst hpa hpa1 ha0
            simp [List.countP_cons, ReadEvent.isRequest, ReadEvent.isAnswer]
          · have := ih a2 suf ha2
            subst hpa hpa1 hpa2
            simp [List.countP_cons, ReadEvent.isRequest, ReadEvent.isAnswer]
            omega

theorem no_request_after (l pre suf : List ReadEvent) (ev : ReadEvent)
    (hno : ∀ e ∈ l, e.isRequest = false) (h : l = pre ++ ev :: suf) :
    ∀ e ∈ suf, e.isRequest = false := by
  intro e he
  apply hno
  rw [h]
  exact List.mem_append_right _ (List.mem_cons_of_mem _ he)

theorem readEntriesTrace_end (err : Option String) :
    ∀ (batches : List (List Entry)) (pre suf : List ReadEvent) (ev : ReadEvent),
    readEntriesTrace err batches = pre ++ ev :: suf →
    (ev = ReadEvent.batch [] ∨ ∃ r, ev = ReadEvent.error r) →
    ∀ e ∈ suf, e.isRequest = false := by
  intro batches
  induction batches with
  | nil =>
    intro pre suf ev h hev
    simp only [readEntriesTrace] at h
    rcases List.cons_eq_append_iff.mp h with ⟨_, h0⟩ | ⟨a, _, ha⟩
    · injection h0 with h1 _
      subst h1
      rcases hev with hev | ⟨r, hev⟩ <;> cases hev
    · refine no_request_after _ a suf ev ?_ ha
      intro e he
      cases err with
      | none =>
        simp only [List.mem_cons, List.mem_singleton, List.not_mem_nil, or_false] at he
        rcases he with he | he <;> subst he <;> rfl
      | some r =>
        simp only [List.mem_singleton] at he
        subst he
        rfl
  | cons b rest ih =>
    intro pre suf ev h hev
    simp only [readEntriesTrace] at h
    rcases List.cons_eq_append_iff.mp h with ⟨_, h0⟩ | ⟨a, _, ha⟩
    · injection h0 with h1 _
      subst h1
      rcases hev with hev | ⟨r, hev⟩ <;> cases hev
    · by_cases hb : b.length = 0
      · rw [if_pos hb] at ha
        refine no_request_after _ a suf ev ?_ ha
        intro e he
        simp only [List.mem_cons, List.mem_singleton, List.not_mem_nil, or_false] at he
        rcases he with he | he <;> subst he <;> rfl
      · rw [if_neg hb] at ha
        rcases List.cons_eq_append_iff.mp ha with ⟨_, h1⟩ | ⟨a1, _, ha1⟩
        · injection h1 with h2 _
          subst h2
          rcases hev with hev | ⟨r, hev⟩
          · injection hev with hev
            exact absurd (by rw [hev]; rfl) hb
          · cases hev
        · rcases List.cons_eq_append_iff.mp ha1 with ⟨_, h2⟩ | ⟨a2, _, ha2⟩
          · injection h2 with h3 _
            subst h3
            rcases hev with hev | ⟨r, hev⟩ <;> cases hev
          · exact ih a2 suf ev ha2 hev

/-- The trace and the embedded loop are one computation: `readEntries` rejects with
the error of the trace when there is one, and otherwise joins the entries it had,
followed by the batches started in the trace, in order. -/
theorem readEntries_eq_of_trace (entry : Entry) (err : Option String) :
    ∀ (batches : List (List Entry)) (entries : List (Except String Nested)) (empty : Bool),
    readEntries entry err batches entries empty =
      match traceError (readEntriesTrace err batches) with
      | some e => .error e
      | none =>
        doneReading entry
          (entries ++ (startedBatches (readEntriesTrace err batches)).map
            (fun b => (Promise.all (mapFromEntry b)).map Nested.arr))
          (empty && (startedBatches (readEntriesTrace err batches)).isEmpty) := by
  intro batches
  induction batches with
  | nil =>
    intro entries empty
    cases err with
    | none => simp [readEntries, readEntriesTrace, traceError, startedBatches]
    | some e => simp [readEntries, readEntriesTrace, traceError]
  | cons b rest ih =>
    intro entries empty
    by_cases hb : b.length = 0
    · simp [readEntries, readEntriesTrace, hb, traceError, startedBatches]
    · simp only [readEntries, readEntriesTrace, if_neg hb, traceError, startedBatches]
      rw [ih]
      cases traceError (readEntriesTrace err rest) with
      | some e => rfl
      | none => simp

/-- C16: in the events of every `fromDirEntry` run, in program order: at every point
the read requests made are at most one more than the reader's answers; whenever a
request is made every earlier request has been answered, and the request is either
the first event or comes right after the reader delivered a non-empty batch in answer
to the previous request and the resolution of that batch was started (so the batches
started before the `k+1`-th request are `k`); after an empty batch or an error has
been delivered no request is made. The trace is that of the embedded `fromDirEntry`:
the promise rejects with the error of the trace, or joins the batches started in it. -/
theorem fromDirEntry_reads_one_at_a_time (batches : List (List Entry)) (err : Option String) :
    (∀ pre suf, fromDirEntryTrace batches err = pre ++ suf →
      pre.countP ReadEvent.isRequest ≤ pre.countP ReadEvent.isAnswer + 1) ∧
    (∀ pre suf, fromDirEntryTrace batches err = pre ++ ReadEvent.request :: suf →
      pre.countP ReadEvent.isAnswer = pre.countP ReadEvent.isRequest ∧
      pre.countP ReadEvent.isStarted = pre.countP ReadEvent.isRequest ∧
      (pre = [] ∨ ∃ pre0 b, pre = pre0 ++ [.request, .batch b, .started b] ∧ b ≠ [])) ∧
    (∀ pre ev suf, fromDirEntryTrace batches err = pre ++ ev :: suf →
      (ev = ReadEvent.batch [] ∨ ∃ r, ev = ReadEvent.error r) →
      ∀ e ∈ suf, e.isRequest = false) ∧
    (∀ name fullPath,
      fromDirEntry (.dir name fullPath batches err) =
        match traceError (fromDirEntryTrace batches err) with
        | some e => .error e
        | none =>
          doneReading (.dir name fullPath batches err)
            ((startedBatches (fromDirEntryTrace batches err)).map
              (fun b => (Promise.all (mapFromEntry b)).map Nested.arr))
            (startedBatches (fromDirEntryTrace batches err)).isEmpty) := by
  refine ⟨?_, ?_, ?_, ?_⟩
  · intro pre suf h
    exact readEntriesTrace_outstanding err batches pre suf h
  · intro pre suf h
    exact readEntriesTrace_request err batches pre suf h
  · intro pre ev suf h hev
    exact readEntriesTrace_end err batches pre suf ev h hev
  · intro name fullPath
    have h := readEntries_eq_of_trace (.dir name fullPath batches err) err batches [] true
    simp only [List.nil_append, Bool.true_and] at h
    simp only [fromDirEntry, fromDirEntryTrace, h]

theorem fromDirEntry_reads_one_at_a_time_witness :
    (([ .request, .batch [ .file "a" "/d/a" (.ok ⟨"a", "", some "", []⟩) ],
        .started [ .file "a" "/d/a" (.ok ⟨"a", "", some "", []⟩) ] ] :
        List ReadEvent).countP ReadEvent.isAnswer =
      ([ .request, .batch [ .file "a" "/d/a" (.ok ⟨"a", "", some "", []⟩) ],
        .started [ .file "a" "/d/a" (.ok ⟨"a", "", some "", []⟩) ] ] :
        List ReadEvent).countP ReadEvent.isRequest ∧
      ([ .request, .batch [ .file "a" "/d/a" (.ok ⟨"a", "", some "", []⟩) ],
        .started [ .file "a" "/d/a" (.ok ⟨"a", "", some "", []⟩) ] ] :
        List ReadEvent).countP ReadEvent.isStarted =
      ([ .request, .batch [ .file "a" "/d/a" (.ok ⟨"a", "", some "", []⟩) ],
        .started [ .file "a" "/d/a" (.ok ⟨"a", "", some "", []⟩) ] ] :
        List ReadEvent).countP ReadEvent.isRequest ∧
      (([ .request, .batch [ .file "a" "/d/a" (.ok ⟨"a", "", some "", []⟩) ],
          .started [ .file "a" "/d/a" (.ok ⟨"a", "", some "", []⟩) ] ] : List ReadEvent) = [] ∨
        ∃ pre0 b,
          ([ .request, .batch [ .file "a" "/d/a" (.ok ⟨"a", "", some "", []⟩) ],
            .started [ .file "a" "/d/a" (.ok ⟨"a", "", some "", []⟩) ] ] : List ReadEvent) =
            pre0 ++ [.request, .batch b, .started b] ∧ b ≠ [])) ∧
    (∀ e ∈ ([.joined] : List ReadEvent), e.isRequest = false) :=
  ⟨(fromDirEntry_reads_one_at_a_time
      [ [ .file "a" "/d/a" (.ok ⟨"a", "", some "", []⟩) ] ] none).2.1
      [ .request, .batch [ .file "a" "/d/a" (.ok ⟨"a", "", some "", []⟩) ],
        .started [ .file "a" "/d/a" (.ok ⟨"a", "", some "", []⟩) ] ]
      [ .batch [], .joined ] rfl,
    (fromDirEntry_reads_one_at_a_time
      [ [ .file "a" "/d/a" (.ok ⟨"a", "", some "", []⟩) ] ] none).2.2.1
      [ .request, .batch [ .file "a" "/d/a" (.ok ⟨"a", "", some "", []⟩) ],
        .started [ .file "a" "/d/a" (.ok ⟨"a", "", some "", []⟩) ], .request ]
      (.batch []) [ .joined ] rfl (Or.inl rfl)⟩

end FileSelector
